import Mathlib

set_option maxRecDepth 10000

/-!
Shallow embedding of `src/tree/suffix_tree/introduction.py`: Ukkonen's suffix
tree construction (`build_suffix_tree` / `extend_suffix_tree` / `walk_down`),
the suffix-index annotation pass (`set_suffix_index_by_dfs`), and the substring
query (`check_for_substring` / `do_traversal` / `traverse_edge`).

Modelling conventions:
* Characters are their `ord` codes (`Nat`).  Python string indexing `t[i]`
  allows negative indices that wrap once and raises `IndexError` otherwise;
  `pyGet` returns `none` exactly when the source raises.
* The node heap is an arena `List SuffixTreeNode`; node references are arena
  indices.  `new SuffixTreeNode(...)` appends at the end.
* The shared mutable `Pointer` held in `SuffixTree.leaf_end` is the single
  global end tracker.  A node's `end` is either a reference to that tracker
  (`EEnd.tracker`) or a privately owned `Pointer` with a fixed value
  (`root_end`, a `split_end`, or a fresh `Pointer(i)` installed by trimming);
  no two nodes ever share a non-tracker `Pointer` in the source, so the
  tagged value is a faithful model of the aliasing.
* The `children` table of size `MAX_CHAR = 256` is a function on codes;
  reading or writing a slot at a code `≥ 256` raises in the source
  (`IndexError` on the fixed-size list) and returns `none` here.
* The unbounded `while` of `extend_suffix_tree` and the recursions of
  `set_suffix_index_by_dfs` / `do_traversal` take explicit fuel; `none`
  signals either fuel exhaustion or a raised exception.
-/

namespace Ukk

/-- Size of each node's child table (`MAX_CHAR = 256` in the source). -/
def MAX_CHAR : Nat := 256

/-- Code of the character the annotation pass trims at (`ord '#' = 35`). -/
def sharpC : Nat := 35

/-- Edge-end storage of a node: the shared global end tracker, or a privately
owned fixed value. -/
inductive EEnd where
  | tracker : EEnd
  | fixed : Int → EEnd
deriving DecidableEq, Repr

/-- A `SuffixTreeNode`: child table, suffix link, edge interval `(start, end)`
stored in the child, and the leaf's `suffixIndex` (`-1` until annotation). -/
structure SuffixTreeNode where
  children : Nat → Option Nat
  suffixLink : Option Nat
  start : Int
  endv : EEnd
  suffixIndex : Int

instance : Inhabited SuffixTreeNode :=
  ⟨⟨fun _ => none, none, 0, EEnd.fixed 0, 0⟩⟩

/-- Fresh node, as built by `SuffixTreeNode.__init__(start, end, root)`:
empty child table, `suffixLink = root` (the argument, possibly `None`),
`suffixIndex = -1`. -/
def newNode (start : Int) (endv : EEnd) (link : Option Nat) : SuffixTreeNode :=
  { children := fun _ => none, suffixLink := link, start := start,
    endv := endv, suffixIndex := -1 }

/-- The `SuffixTree` object state: input text, node arena, and the scalar
fields of the class (`root`, `activeNode`, `activeEdge`, `activeLength`,
`leaf_end.value`, `remainingSuffixCount`, `size`). -/
structure ST where
  text : List Nat
  nodes : List SuffixTreeNode
  root : Nat
  activeNode : Nat
  activeEdge : Int
  activeLength : Int
  leafEnd : Int
  remainingSuffixCount : Int
  size : Int

instance : Inhabited ST :=
  ⟨⟨[], [], 0, 0, -1, 0, -1, 0, -1⟩⟩

/-- Python string indexing `t[i]`: negative indices wrap once from the end,
anything else raises `IndexError` (modelled as `none`). -/
def pyGet (l : List Nat) (i : Int) : Option Nat :=
  if 0 ≤ i then
    if i < (l.length : Int) then l.get? i.toNat else none
  else
    if 0 ≤ i + (l.length : Int) then l.get? (i + (l.length : Int)).toNat else none

/-- Dereference an arena index (node references never dangle in the source;
`none` only arises for indices never produced by it). -/
def getN (s : ST) (i : Nat) : Option SuffixTreeNode :=
  s.nodes.get? i

/-- Overwrite the node stored at an arena index. -/
def putN (s : ST) (i : Nat) (nd : SuffixTreeNode) : Option ST :=
  if i < s.nodes.length then some { s with nodes := s.nodes.set i nd } else none

/-- Allocate a fresh node (`new SuffixTreeNode(...)`), returning its index. -/
def pushN (s : ST) (nd : SuffixTreeNode) : ST × Nat :=
  ({ s with nodes := s.nodes ++ [nd] }, s.nodes.length)

/-- Read child slot `c` of a node: `node.children[c]`; raises when `c` is
outside the fixed table of size `MAX_CHAR`. -/
def childGet (nd : SuffixTreeNode) (c : Nat) : Option (Option Nat) :=
  if c < MAX_CHAR then some (nd.children c) else none

/-- Write child slot `c` of a node: `node.children[c] = v`. -/
def childSet (nd : SuffixTreeNode) (c : Nat) (v : Option Nat) :
    Option SuffixTreeNode :=
  if c < MAX_CHAR then
    some { nd with children := fun x => if x = c then v else nd.children x }
  else none

/-- Resolve a node's `end.value` against the current tracker. -/
def resolveEnd (s : ST) : EEnd → Int
  | EEnd.tracker => s.leafEnd
  | EEnd.fixed v => v

/-- `edge_length(n)`: `0` for the root, else `n.end.value - n.start + 1`. -/
def edge_length (s : ST) (nid : Nat) : Option Int :=
  if nid = s.root then some 0
  else do
    let nd ← getN s nid
    some (resolveEnd s nd.endv - nd.start + 1)

/-- `walk_down(currNode)` (skip/count trick): descend iff
`activeLength >= edge_length(currNode)`, adjusting the active point. -/
def walk_down (s : ST) (currNode : Nat) : Option (Bool × ST) := do
  let el ← edge_length s currNode
  if el ≤ s.activeLength then
    some (true, { s with
      activeEdge := s.activeEdge + el,
      activeLength := s.activeLength - el,
      activeNode := currNode })
  else
    some (false, s)

/-- Result of one pass through the body of the `while` in
`extend_suffix_tree`: `again` is the `continue` after a walk-down, `halt` is
the Rule-3 `break`, `step` finished one extension (counter decremented,
active point re-homed). -/
inductive StepRes where
  | again : ST → Option Nat → StepRes
  | halt : ST → StepRes
  | step : ST → Option Nat → StepRes

/-- Tail of the loop body shared by Rule-2 branches: decrement
`remainingSuffixCount`, then re-home the active point (APCFER2C1 at the
root, suffix-link jump otherwise).  The source stores `None` into
`activeNode` when the suffix link is absent and would fail at its next
dereference; we fail at the assignment. -/
def finishStep (s : ST) (pos : Int) (lnn : Option Nat) : Option StepRes := do
  let s := { s with remainingSuffixCount := s.remainingSuffixCount - 1 }
  if s.activeNode = s.root ∧ 0 < s.activeLength then
    pure (StepRes.step { s with
      activeLength := s.activeLength - 1,
      activeEdge := pos - s.remainingSuffixCount + 1 } lnn)
  else if s.activeNode = s.root then
    pure (StepRes.step s lnn)
  else do
    let an ← getN s s.activeNode
    match an.suffixLink with
    | some l => pure (StepRes.step { s with activeNode := l } lnn)
    | none => none

/-- `node.suffixLink = target` for the node at arena index `l`. -/
def setLink (s : ST) (l target : Nat) : Option ST := do
  let ln ← getN s l
  putN s l { ln with suffixLink := some target }

/-- `node.children[c] = w` for the node at arena index `v`. -/
def setChildOf (s : ST) (v : Nat) (c : Nat) (w : Option Nat) : Option ST := do
  let nd ← getN s v
  let nd2 ← childSet nd c w
  putN s v nd2

/-- Extension Rule 2 at a node boundary:
`activeNode.children[ce] = SuffixTreeNode(pos, leaf_end, root)`. -/
def addLeafEdge (s : ST) (pos : Int) (ce : Nat) : Option ST :=
  let (s1, leafId) := pushN s (newNode pos EEnd.tracker (some s.root))
  setChildOf s1 s1.activeNode ce (some leafId)

/-- `if last_new_node is not None: last_new_node.suffixLink = target`. -/
def resolveLnn (s : ST) (lnn : Option Nat) (target : Nat) : Option ST :=
  match lnn with
  | some l => setLink s l target
  | none => pure s

/-- The guarded variant used by Extension Rule 3: the suffix link is only
reset when the active node is not the root. -/
def resolveLnnRule3 (s : ST) (lnn : Option Nat) : Option ST :=
  match lnn with
  | some l => if s.activeNode ≠ s.root then setLink s l s.activeNode else pure s
  | none => pure s

/-- The no-outgoing-edge branch of the extension loop body: new leaf edge,
then resolve a waiting `last_new_node` to the active node. -/
def ruleTwo (s : ST) (pos : Int) (ce : Nat) (lnn : Option Nat) :
    Option StepRes := do
  let s2 ← addLeafEdge s pos ce
  let s3 ← resolveLnn s2 lnn s2.activeNode
  finishStep s3 pos none

/-- Extension Rule 3: the current character is already on the edge; resolve a
waiting `last_new_node` (only when the active node is not the root), bump
`activeLength`, and `break` out of the phase. -/
def ruleThree (s : ST) (lnn : Option Nat) : Option StepRes := do
  let s1 ← resolveLnnRule3 s lnn
  pure (StepRes.halt { s1 with activeLength := s1.activeLength + 1 })

/-- The fall-off-mid-edge branch: create the internal `split` node owning the
edge prefix, hang it in the active node's slot `ce`, attach the new leaf for
`text[pos]`, advance `nextt.start` by `activeLength` and re-attach `nextt`
under `split`, then resolve and re-arm `last_new_node`. -/
def doSplit (s : ST) (pos : Int) (ce : Nat) (nextt : Nat)
    (nd : SuffixTreeNode) (cp : Nat) (lnn : Option Nat) : Option StepRes := do
  let splitEnd : Int := nd.start + s.activeLength - 1
  let (s1, splitId) := pushN s (newNode nd.start (EEnd.fixed splitEnd) (some s.root))
  let s2 ← setChildOf s1 s1.activeNode ce (some splitId)
  let (s3, leafId) := pushN s2 (newNode pos EEnd.tracker none)
  let s4 ← setChildOf s3 splitId cp (some leafId)
  let nd4 ← getN s4 nextt
  let s5 ← putN s4 nextt { nd4 with start := nd4.start + s4.activeLength }
  let cn ← pyGet s5.text (nd4.start + s4.activeLength)
  let s6 ← setChildOf s5 splitId cn (some nextt)
  let s7 ← resolveLnn s6 lnn splitId
  finishStep s7 pos (some splitId)

/-- One pass through the body of the extension `while` loop of
`extend_suffix_tree`, with `lnn` the local `last_new_node`. -/
def extendStep (s : ST) (pos : Int) (lnn : Option Nat) : Option StepRes := do
  let s := if s.activeLength = 0 then { s with activeEdge := pos } else s
  let ce ← pyGet s.text s.activeEdge
  let an ← getN s s.activeNode
  let slot ← childGet an ce
  match slot with
  | none => ruleTwo s pos ce lnn
  | some nextt => do
      let (moved, sW) ← walk_down s nextt
      if moved then
        pure (StepRes.again sW lnn)
      else do
        let nd ← getN sW nextt
        let c1 ← pyGet sW.text (nd.start + sW.activeLength)
        let cp ← pyGet sW.text pos
        if c1 = cp then ruleThree sW lnn
        else doSplit sW pos ce nextt nd cp lnn

/-- The extension `while remainingSuffixCount > 0` loop, with fuel. -/
def extendLoop : Nat → ST → Int → Option Nat → Option ST
  | 0, _, _, _ => none
  | fuel + 1, s, pos, lnn =>
    if 0 < s.remainingSuffixCount then
      match extendStep s pos lnn with
      | none => none
      | some (StepRes.again s1 l1) => extendLoop fuel s1 pos l1
      | some (StepRes.halt s1) => some s1
      | some (StepRes.step s1 l1) => extendLoop fuel s1 pos l1
    else some s

/-- `extend_suffix_tree(pos)`: Rule 1 (advance the tracker), bump
`remainingSuffixCount`, clear `last_new_node`, run the extension loop. -/
def extend_suffix_tree (fuel : Nat) (s : ST) (pos : Int) : Option ST :=
  extendLoop fuel
    { s with leafEnd := pos,
             remainingSuffixCount := s.remainingSuffixCount + 1 }
    pos none

/-- The `for i in range(self.size)` phase loop of `build_suffix_tree`. -/
def runPhases (fuel : Nat) : ST → List Int → Option ST
  | s, [] => some s
  | s, p :: ps => do
      let s1 ← extend_suffix_tree fuel s p
      runPhases fuel s1 ps

/-- Phase positions `0, 1, ..., n-1`. -/
def posList (n : Nat) : List Int :=
  (List.range n).map Int.ofNat

/-- Body of the trimming loop of `set_suffix_index_by_dfs`, iterating over
the `(stop + 1 - i)` indices of `range(start, stop + 1)` (first argument);
text indexing may raise. -/
def trimGo (nid : Nat) : Nat → ST → Int → Option ST
  | 0, s, _ => pure s
  | f + 1, s, i => do
      let c ← pyGet s.text i
      let s1 ←
        (if c = sharpC then do
          let nd ← getN s nid
          putN s nid { nd with endv := EEnd.fixed i }
        else pure s)
      trimGo nid f s1 (i + 1)

/-- The trimming loop of `set_suffix_index_by_dfs`:
`for i in range(n.start, n.end.value + 1): if text[i] == '#': n.end = Pointer(i)`
(the range bound is computed once at entry). -/
def trimLoop (s : ST) (nid : Nat) (i stop : Int) : Option ST :=
  trimGo nid (stop + 1 - i).toNat s i

/-- The `for i in range(MAX_CHAR)` child loop of `set_suffix_index_by_dfs`,
carrying the `leaf` flag and the recursive visit `visit`; the node is re-read
from the evolving state at each slot, as the source reads the live object. -/
def dfsKids (visit : ST → Option Nat → Int → Option ST) (nid : Nat)
    (labelHeight : Int) : ST → List Nat → Bool → Option (ST × Bool)
  | s, [], leaf => some (s, leaf)
  | s, i :: is, leaf => do
      let nd ← getN s nid
      match nd.children i with
      | none => dfsKids visit nid labelHeight s is leaf
      | some cid => do
          let el ← edge_length s cid
          let s1 ← visit s (some cid) (labelHeight + el)
          dfsKids visit nid labelHeight s1 is false

/-- `set_suffix_index_by_dfs(n, label_height)` (printing elided): recurse into
every present child in slot order, computing the `leaf` flag; at a leaf trim
the edge end at `'#'` and set `suffixIndex = size - label_height`.  Fuel
bounds the recursion depth only. -/
def set_suffix_index_by_dfs : Nat → ST → Option Nat → Int → Option ST
  | 0, _, _, _ => none
  | _ + 1, s, none, _ => some s
  | fuel + 1, s, some nid, labelHeight => do
      let (s1, leaf) ←
        dfsKids (fun s2 n h => set_suffix_index_by_dfs fuel s2 n h) nid
          labelHeight s (List.range MAX_CHAR) true
      if leaf then do
        let nd ← getN s1 nid
        let stop := resolveEnd s1 nd.endv
        let s2 ← trimLoop s1 nid nd.start stop
        let nd2 ← getN s2 nid
        putN s2 nid { nd2 with suffixIndex := s2.size - labelHeight }
      else
        pure s1

/-- State of the `SuffixTree` object right after `__init__(text)`. -/
def initState (text : List Nat) : ST :=
  { text := text, nodes := [], root := 0, activeNode := 0, activeEdge := -1,
    activeLength := 0, leafEnd := -1, remainingSuffixCount := 0, size := -1 }

/-- The preamble of `build_suffix_tree`: set `size`, allocate the root
(`SuffixTreeNode(-1, Pointer(-1), None)`), make it the active node. -/
def buildStart (text : List Nat) : ST :=
  let s := { initState text with size := (text.length : Int) }
  let (s1, rid) := pushN s (newNode (-1) (EEnd.fixed (-1)) none)
  { s1 with root := rid, activeNode := rid }

/-- Fuel for one call of `extend_suffix_tree` (ample for every real run:
each phase performs at most `size` decrementing extensions plus at most
`size` walk-downs). -/
def phaseFuel (text : List Nat) : Nat :=
  2 * text.length + 8

/-- Fuel for the annotation recursion (bounds only the depth, which on a
tree-shaped arena is at most the number of nodes). -/
def dfsFuel (s : ST) : Nat :=
  s.nodes.length + 2

/-- `build_suffix_tree` without the final annotation pass: preamble plus all
phases. -/
def buildPhasesOnly (text : List Nat) : Option ST :=
  runPhases (phaseFuel text) (buildStart text) (posList text.length)

/-- `build_suffix_tree()`: phases, then `set_suffix_index_by_dfs(root, 0)`. -/
def build_suffix_tree (text : List Nat) : Option ST := do
  let s1 ← buildPhasesOnly text
  set_suffix_index_by_dfs (dfsFuel s1) s1 (some s1.root) 0

/-- Body of the `traverse_edge` loop, iterating over the `(stop + 1 - k)`
edge positions still available (first argument). -/
def traverseEdgeGo (s : ST) (p : List Nat) : Nat → Int → Int → Option Int
  | 0, idx, _ =>
      if (p.length : Int) ≤ idx then some 1 else some 0
  | f + 1, idx, k =>
      if idx < (p.length : Int) then do
        let tc ← pyGet s.text k
        let pc ← pyGet p idx
        if tc ≠ pc then some (-1)
        else traverseEdgeGo s p f (idx + 1) (k + 1)
      else if (p.length : Int) ≤ idx then some 1
      else some 0

/-- `traverse_edge(m_string, idx, start, end)`: character-by-character match
along one edge; `-1` mismatch, `1` pattern exhausted, `0` edge exhausted. -/
def traverse_edge (s : ST) (p : List Nat) (idx k stop : Int) : Option Int :=
  traverseEdgeGo s p (stop + 1 - k).toNat idx k

/-- `do_traversal(n, m_string, idx)`, threading the (read-only) tree state
through the recursion.  Returns the source's `-1` (no match) or `1` (match);
`none` models a raised `IndexError` (e.g. `m_string[idx]` out of range). -/
def do_traversal : Nat → ST → Option Nat → List Nat → Int → Option (Int × ST)
  | 0, _, _, _, _ => none
  | _ + 1, s, none, _, _ => some (-1, s)
  | fuel + 1, s, some nid, p, idx => do
      let nd ← getN s nid
      let descend : Option (Int × ST) := do
        let el ← edge_length s nid
        let idx2 := idx + el
        let pc ← pyGet p idx2
        let slot ← childGet nd pc
        match slot with
        | some cid => do_traversal fuel s (some cid) p idx2
        | none => some (-1, s)
      if nd.start ≠ -1 then do
        let r ← traverse_edge s p idx nd.start (resolveEnd s nd.endv)
        if r ≠ 0 then some (r, s) else descend
      else descend

/-- `check_for_substring(m_string)`: `true` iff `do_traversal` returns `1`
(the source prints "is a Substring" / "is NOT a Substring"). -/
def check_for_substring (s : ST) (p : List Nat) : Option (Bool × ST) := do
  let (r, s1) ← do_traversal (s.nodes.length + 2) s (some s.root) p 0
  pure (r = 1, s1)

/-- Build the tree of `text`, then query `p`; `none` when either raises. -/
def queryBuild (text p : List Nat) : Option Bool := do
  let s ← build_suffix_tree text
  let (b, _) ← check_for_substring s p
  pure b

end Ukk

/-! ## Shared helper lemmas -/

namespace Ukk

theorem eq_some_getD {α : Type _} (o : Option α) (d : α) (h : o.isSome = true) :
    o = some (o.getD d) := by
  cases o with
  | none => simp at h
  | some a => rfl

theorem listGetSetSelf {α : Type _} (l : List α) (i : Nat) (a : α)
    (h : i < l.length) : (l.set i a).get? i = some a := by
  induction l generalizing i with
  | nil => simp at h
  | cons x xs ih =>
      cases i with
      | zero => rfl
      | succ j => simp only [List.set, List.get?]; exact ih j (by simp at h; omega)

theorem listGetSetNe {α : Type _} (l : List α) (i j : Nat) (a : α)
    (h : j ≠ i) : (l.set i a).get? j = l.get? j := by
  induction l generalizing i j with
  | nil => rfl
  | cons x xs ih =>
      cases i with
      | zero =>
          cases j with
          | zero => exact absurd rfl h
          | succ j2 => rfl
      | succ i2 =>
          cases j with
          | zero => rfl
          | succ j2 =>
              show (xs.set i2 a).get? j2 = xs.get? j2
              exact ih i2 j2 (by omega)

theorem listGetAppendLt {α : Type _} (l1 l2 : List α) (i : Nat)
    (h : i < l1.length) : (l1 ++ l2).get? i = l1.get? i := by
  induction l1 generalizing i with
  | nil => simp at h
  | cons x xs ih =>
      cases i with
      | zero => rfl
      | succ j =>
          show (xs ++ l2).get? j = xs.get? j
          exact ih j (by simp at h; omega)

theorem listGetConcatLen {α : Type _} (l : List α) (a : α) :
    (l ++ [a]).get? l.length = some a := by
  induction l with
  | nil => rfl
  | cons x xs ih =>
      show (xs ++ [a]).get? xs.length = some a
      exact ih

/-- `putN` succeeds exactly on valid indices. -/
theorem putN_eq_some_iff (s : ST) (i : Nat) (nd : SuffixTreeNode) :
    (putN s i nd).isSome = true ↔ i < s.nodes.length := by
  simp only [putN]
  split <;> simp_all

theorem putN_nodes (s : ST) (i : Nat) (nd : SuffixTreeNode) (s' : ST)
    (h : putN s i nd = some s') : s'.nodes = s.nodes.set i nd ∧ i < s.nodes.length := by
  simp only [putN] at h
  split at h
  · cases h; simp_all
  · cases h

/-- `putN` changes only the arena. -/
theorem putN_scal (s : ST) (i : Nat) (nd : SuffixTreeNode) (s' : ST)
    (h : putN s i nd = some s') :
    s'.text = s.text ∧ s'.root = s.root ∧ s'.activeNode = s.activeNode ∧
    s'.activeEdge = s.activeEdge ∧ s'.activeLength = s.activeLength ∧
    s'.leafEnd = s.leafEnd ∧ s'.remainingSuffixCount = s.remainingSuffixCount ∧
    s'.size = s.size ∧ s'.nodes.length = s.nodes.length := by
  simp only [putN] at h
  split at h
  · cases h; simp_all
  · cases h

theorem getN_putN_self (s : ST) (i : Nat) (nd : SuffixTreeNode) (s' : ST)
    (h : putN s i nd = some s') : getN s' i = some nd := by
  obtain ⟨hn, hl⟩ := putN_nodes s i nd s' h
  unfold getN
  rw [hn]
  exact listGetSetSelf _ _ _ hl

theorem getN_putN_ne (s : ST) (i : Nat) (nd : SuffixTreeNode) (s' : ST)
    (h : putN s i nd = some s') (j : Nat) (hj : j ≠ i) :
    getN s' j = getN s j := by
  obtain ⟨hn, _⟩ := putN_nodes s i nd s' h
  unfold getN
  rw [hn]
  exact listGetSetNe _ _ _ _ hj

theorem getN_pushN_lt (s : ST) (nd : SuffixTreeNode) (j : Nat)
    (hj : j < s.nodes.length) : getN (pushN s nd).1 j = getN s j := by
  unfold getN pushN
  exact listGetAppendLt _ _ _ hj

theorem getN_pushN_new (s : ST) (nd : SuffixTreeNode) :
    getN (pushN s nd).1 s.nodes.length = some nd := by
  unfold getN pushN
  exact listGetConcatLen _ _

theorem getN_isSome_iff (s : ST) (i : Nat) :
    (getN s i).isSome = true ↔ i < s.nodes.length := by
  unfold getN
  induction s.nodes generalizing i with
  | nil => simp
  | cons x xs ih =>
      cases i with
      | zero => simp
      | succ j =>
          show (xs.get? j).isSome = true ↔ j + 1 < xs.length + 1
          rw [ih j]
          omega

end Ukk

/-! ## Claim C4: building from the empty text -/

namespace Ukk

/-- C4: the claim states that building from the empty text yields a degenerate
root-only tree and that queries then return NO_MATCH.  In the code the phase
loop indeed runs zero times, but the annotation pass then treats the root
(childless, `start = -1`, `end.value = -1`) as a leaf and its trimming loop
evaluates `text[-1]` on the empty string, raising `IndexError`: the build
never completes.  The conjuncts isolate the failure: the phases succeed and
return the untouched two-field preamble state, and `set_suffix_index_by_dfs`
is the call that fails. -/
theorem c4_empty_text_build_raises :
    build_suffix_tree [] = none ∧
    buildPhasesOnly [] = some (buildStart []) ∧
    set_suffix_index_by_dfs (dfsFuel (buildStart [])) (buildStart [])
      (some (buildStart []).root) 0 = none :=
  ⟨rfl, rfl, rfl⟩

/-- C1: the claim quantifies the MATCH result over all substrings including
the empty pattern.  On the built tree of text `"ab#"` ( `[97, 98, 35]` ) the
query on the empty pattern raises `IndexError` (`m_string[0]` in
`do_traversal` after the root is skipped) instead of returning MATCH, while
non-empty patterns behave as specified (`"ab"` matches, `"bc"` does not). -/
theorem c1_empty_pattern_query_raises :
    (build_suffix_tree [97, 98, 35]).isSome = true ∧
    queryBuild [97, 98, 35] [] = none ∧
    queryBuild [97, 98, 35] [97, 98] = some true ∧
    queryBuild [97, 98, 35] [98, 99] = some false :=
  ⟨rfl, rfl, rfl, rfl⟩

end Ukk

/-! ## Claim C9: the empty pattern makes the query raise, on every tree -/

namespace Ukk

/-- On any state whose root has `start = -1`, `do_traversal` on the empty
pattern skips edge matching at the root, adds the root's edge length `0` to
the offset, and then indexes the empty pattern at `0`: `IndexError`. -/
theorem do_traversal_nil_at_root (s : ST) (f : Nat) (nd : SuffixTreeNode)
    (h1 : getN s s.root = some nd) (h2 : nd.start = -1) :
    do_traversal (f + 1) s (some s.root) [] 0 = none := by
  have hroot : edge_length s s.root = some 0 := by simp [edge_length]
  simp [do_traversal, h1, h2, hroot, pyGet]

/-- C9: on every tree whose root node carries `start = -1` (as every tree the
source builds does), the substring query on the empty pattern neither
matches nor rejects: it raises (`m_string[idx]` with `idx = 0` on a length-0
pattern), modelled as `none`. -/
theorem c9_empty_pattern_raises (s : ST)
    (h : (getN s s.root).map SuffixTreeNode.start = some (-1)) :
    check_for_substring s [] = none := by
  cases hG : getN s s.root with
  | none => rw [hG] at h; cases h
  | some nd =>
      rw [hG] at h
      have h2 : nd.start = -1 := by
        injection h
      have := do_traversal_nil_at_root s (s.nodes.length + 1) nd hG h2
      simp [check_for_substring, this]

/-- The tree built from `"ab#"`, used as a concrete witness input. -/
def builtAB : ST := (build_suffix_tree [97, 98, 35]).getD default

/-- Witness for C9 at the concrete built tree of `"ab#"`. -/
theorem c9_empty_pattern_raises_witness :
    check_for_substring builtAB [] = none :=
  c9_empty_pattern_raises builtAB (by decide)

end Ukk

/-! ## Claim C8: the substring query is read-only and deterministic -/

namespace Ukk

/-- `do_traversal` never produces a state different from the one it was
given: the source's methods only read `self`. -/
theorem do_traversal_state_eq :
    ∀ (f : Nat) (s : ST) (n : Option Nat) (p : List Nat) (i : Int) (r : Int) (s' : ST),
      do_traversal f s n p i = some (r, s') → s' = s := by
  intro f
  induction f with
  | zero => intro s n p i r s' h; cases h
  | succ f ih =>
      intro s n p i r s' h
      cases n with
      | none =>
          simp only [do_traversal] at h
          cases h
          rfl
      | some nid =>
          simp only [do_traversal] at h
          cases hG : getN s nid with
          | none => rw [hG] at h; cases h
          | some nd =>
              rw [hG] at h
              simp only [Option.bind_eq_bind, Option.some_bind] at h
              by_cases hs : nd.start ≠ -1
              · rw [if_pos hs] at h
                cases hT : traverse_edge s p i nd.start (resolveEnd s nd.endv) with
                | none => rw [hT] at h; cases h
                | some r0 =>
                    rw [hT] at h
                    simp only [Option.bind_eq_bind, Option.some_bind] at h
                    by_cases hr : r0 ≠ 0
                    · rw [if_pos hr] at h
                      cases h
                      rfl
                    · rw [if_neg hr] at h
                      cases hE : edge_length s nid with
                      | none => rw [hE] at h; cases h
                      | some el =>
                          rw [hE] at h
                          simp only [Option.bind_eq_bind, Option.some_bind] at h
                          cases hP : pyGet p (i + el) with
                          | none => rw [hP] at h; cases h
                          | some pc =>
                              rw [hP] at h
                              simp only [Option.bind_eq_bind, Option.some_bind] at h
                              cases hC : childGet nd pc with
                              | none => rw [hC] at h; cases h
                              | some slot =>
                                  rw [hC] at h
                                  simp only [Option.bind_eq_bind, Option.some_bind] at h
                                  cases slot with
                                  | none => cases h; rfl
                                  | some cid => exact ih s (some cid) p (i + el) r s' h
              · rw [if_neg hs] at h
                cases hE : edge_length s nid with
                | none => rw [hE] at h; cases h
                | some el =>
                    rw [hE] at h
                    simp only [Option.bind_eq_bind, Option.some_bind] at h
                    cases hP : pyGet p (i + el) with
                    | none => rw [hP] at h; cases h
                    | some pc =>
                        rw [hP] at h
                        simp only [Option.bind_eq_bind, Option.some_bind] at h
                        cases hC : childGet nd pc with
                        | none => rw [hC] at h; cases h
                        | some slot =>
                            rw [hC] at h
                            simp only [Option.bind_eq_bind, Option.some_bind] at h
                            cases slot with
                            | none => cases h; rfl
                            | some cid => exact ih s (some cid) p (i + el) r s' h

/-- C8: whenever the query returns, the resulting tree state is the input
state unchanged (every node's `start`, end value, children table,
`suffixLink` and `suffixIndex` included), and re-running the same query on
that state returns the same answer again. -/
theorem c8_query_readonly (s : ST) (p : List Nat) (b : Bool) (s' : ST)
    (h : check_for_substring s p = some (b, s')) :
    s' = s ∧ check_for_substring s' p = some (b, s') := by
  have hs : s' = s := by
    simp only [check_for_substring, Option.bind_eq_bind] at h
    cases hD : do_traversal (s.nodes.length + 2) s (some s.root) p 0 with
    | none => rw [hD] at h; cases h
    | some rs =>
        rw [hD] at h
        obtain ⟨r, s1⟩ := rs
        simp only [Option.some_bind] at h
        cases h
        exact do_traversal_state_eq _ s (some s.root) p 0 r s' hD
  subst hs
  exact ⟨rfl, h⟩

/-- Witness for C8: querying `"a"` on the built tree of `"ab#"` returns
`true` and hands back the unchanged state. -/
theorem c8_query_readonly_witness :
    builtAB = builtAB ∧ check_for_substring builtAB [97] = some (true, builtAB) :=
  c8_query_readonly builtAB [97] true builtAB (by rfl)

end Ukk

namespace Ukk

/-- State carried by a `StepRes`. -/
def stOf : StepRes → ST
  | StepRes.again s _ => s
  | StepRes.halt s => s
  | StepRes.step s _ => s

/-- The construction-frame scalars preserved by every loop-body operation:
input text, root index, global end tracker value, and `size`. -/
def ScalPres (s s' : ST) : Prop :=
  s'.text = s.text ∧ s'.root = s.root ∧ s'.leafEnd = s.leafEnd ∧ s'.size = s.size

theorem ScalPres.refl (s : ST) : ScalPres s s := ⟨rfl, rfl, rfl, rfl⟩

theorem ScalPres.trans {s1 s2 s3 : ST} (h1 : ScalPres s1 s2)
    (h2 : ScalPres s2 s3) : ScalPres s1 s3 := by
  obtain ⟨a1, b1, c1, d1⟩ := h1
  obtain ⟨a2, b2, c2, d2⟩ := h2
  exact ⟨a2.trans a1, b2.trans b1, c2.trans c1, d2.trans d1⟩

theorem putN_scalP {s : ST} {i : Nat} {nd : SuffixTreeNode} {s' : ST}
    (h : putN s i nd = some s') : ScalPres s s' := by
  obtain ⟨ht, hr, _, _, _, hl, _, hs, _⟩ := putN_scal s i nd s' h
  exact ⟨ht, hr, hl, hs⟩

theorem pushN_scalP (s : ST) (nd : SuffixTreeNode) : ScalPres s (pushN s nd).1 :=
  ⟨rfl, rfl, rfl, rfl⟩

theorem setLink_scalP {s : ST} {l t : Nat} {s' : ST}
    (h : setLink s l t = some s') : ScalPres s s' := by
  simp only [setLink, Option.bind_eq_bind, Option.bind_eq_some] at h
  obtain ⟨ln, _, h⟩ := h
  exact putN_scalP h

theorem setChildOf_scalP {s : ST} {v c : Nat} {w : Option Nat} {s' : ST}
    (h : setChildOf s v c w = some s') : ScalPres s s' := by
  simp only [setChildOf, Option.bind_eq_bind, Option.bind_eq_some] at h
  obtain ⟨nd, _, nd2, _, h⟩ := h
  exact putN_scalP h

theorem addLeafEdge_scalP {s : ST} {pos : Int} {ce : Nat} {s' : ST}
    (h : addLeafEdge s pos ce = some s') : ScalPres s s' := by
  simp only [addLeafEdge] at h
  exact (pushN_scalP s _).trans (setChildOf_scalP h)

theorem resolveLnn_scalP {s : ST} {lnn : Option Nat} {t : Nat} {s' : ST}
    (h : resolveLnn s lnn t = some s') : ScalPres s s' := by
  cases lnn with
  | none => simp only [resolveLnn, pure] at h; cases h; exact ScalPres.refl s
  | some l => simp only [resolveLnn] at h; exact setLink_scalP h

theorem resolveLnnRule3_scalP {s : ST} {lnn : Option Nat} {s' : ST}
    (h : resolveLnnRule3 s lnn = some s') : ScalPres s s' := by
  cases lnn with
  | none => simp only [resolveLnnRule3, pure] at h; cases h; exact ScalPres.refl s
  | some l =>
      simp only [resolveLnnRule3] at h
      split at h
      · exact setLink_scalP h
      · cases h; exact ScalPres.refl s

theorem finishStep_scalP {s : ST} {pos : Int} {lnn : Option Nat} {r : StepRes}
    (h : finishStep s pos lnn = some r) : ScalPres s (stOf r) := by
  simp only [finishStep, Option.bind_eq_bind] at h
  split at h
  · cases h; exact ⟨rfl, rfl, rfl, rfl⟩
  · split at h
    · cases h; exact ⟨rfl, rfl, rfl, rfl⟩
    · simp only [Option.bind_eq_some] at h
      obtain ⟨an, _, h⟩ := h
      cases hL : an.suffixLink with
      | none => rw [hL] at h; cases h
      | some l => rw [hL] at h; cases h; exact ⟨rfl, rfl, rfl, rfl⟩

theorem ruleTwo_scalP {s : ST} {pos : Int} {ce : Nat} {lnn : Option Nat}
    {r : StepRes} (h : ruleTwo s pos ce lnn = some r) : ScalPres s (stOf r) := by
  simp only [ruleTwo, Option.bind_eq_bind, Option.bind_eq_some] at h
  obtain ⟨s2, hA, s3, hB, hC⟩ := h
  exact ((addLeafEdge_scalP hA).trans (resolveLnn_scalP hB)).trans (finishStep_scalP hC)

theorem ruleThree_scalP {s : ST} {lnn : Option Nat} {r : StepRes}
    (h : ruleThree s lnn = some r) : ScalPres s (stOf r) := by
  simp only [ruleThree, Option.bind_eq_bind, Option.bind_eq_some, pure] at h
  obtain ⟨s1, hA, hB⟩ := h
  cases hB
  obtain ⟨a, b, c, d⟩ := resolveLnnRule3_scalP hA
  exact ⟨a, b, c, d⟩

theorem doSplit_scalP {s : ST} {pos : Int} {ce nextt : Nat}
    {nd : SuffixTreeNode} {cp : Nat} {lnn : Option Nat} {r : StepRes}
    (h : doSplit s pos ce nextt nd cp lnn = some r) : ScalPres s (stOf r) := by
  simp only [doSplit, Option.bind_eq_bind, Option.bind_eq_some] at h
  obtain ⟨s2, hA, s4, hB, nd4, hG, s5, hP, cn, hC, s6, hD, s7, hE, hF⟩ := h
  exact (((((((pushN_scalP s _).trans (setChildOf_scalP hA)).trans
    (pushN_scalP s2 _)).trans (setChildOf_scalP hB)).trans
    (putN_scalP hP)).trans (setChildOf_scalP hD)).trans
    (resolveLnn_scalP hE)).trans (finishStep_scalP hF)

theorem walk_down_scalP {s : ST} {c : Nat} {m : Bool} {s' : ST}
    (h : walk_down s c = some (m, s')) : ScalPres s s' := by
  simp only [walk_down, Option.bind_eq_bind, Option.bind_eq_some] at h
  obtain ⟨el, _, h⟩ := h
  split at h
  · cases h; exact ⟨rfl, rfl, rfl, rfl⟩
  · cases h; exact ScalPres.refl s

theorem extendStep_scalP {s : ST} {pos : Int} {lnn : Option Nat} {r : StepRes}
    (h : extendStep s pos lnn = some r) : ScalPres s (stOf r) := by
  simp only [extendStep, Option.bind_eq_bind, Option.bind_eq_some] at h
  obtain ⟨ce, hce, an, han, slot, hslot, h⟩ := h
  have hpre : ScalPres s (if s.activeLength = 0 then { s with activeEdge := pos } else s) := by
    split
    · exact ⟨rfl, rfl, rfl, rfl⟩
    · exact ScalPres.refl s
  cases slot with
  | none => exact hpre.trans (ruleTwo_scalP h)
  | some nextt =>
      simp only [Option.bind_eq_some] at h
      obtain ⟨⟨moved, sW⟩, hW, h⟩ := h
      have hw := walk_down_scalP hW
      cases moved with
      | true =>
          rw [if_pos rfl] at h
          simp only [pure] at h
          cases h
          exact hpre.trans hw
      | false =>
          rw [if_neg Bool.false_ne_true] at h
          simp only [Option.bind_eq_some] at h
          obtain ⟨nd, hnd, c1, hc1, cp, hcp, h⟩ := h
          split at h
          · exact (hpre.trans hw).trans (ruleThree_scalP h)
          · exact (hpre.trans hw).trans (doSplit_scalP h)

theorem extendLoop_scalP :
    ∀ (fuel : Nat) (s : ST) (pos : Int) (lnn : Option Nat) (s' : ST),
      extendLoop fuel s pos lnn = some s' → ScalPres s s' := by
  intro fuel
  induction fuel with
  | zero => intro s pos lnn s' h; cases h
  | succ f ih =>
      intro s pos lnn s' h
      simp only [extendLoop] at h
      split at h
      · cases hS : extendStep s pos lnn with
        | none => rw [hS] at h; cases h
        | some r =>
            rw [hS] at h
            have hs := extendStep_scalP hS
            cases r with
            | again s1 l1 => exact hs.trans (ih s1 pos l1 s' h)
            | halt s1 => cases h; exact hs
            | step s1 l1 => exact hs.trans (ih s1 pos l1 s' h)
      · cases h; exact ScalPres.refl s

/-- One phase: the tracker is written exactly once (to `pos`, by Rule 1 at
phase entry) and the extension loop never writes it again. -/
theorem extend_suffix_tree_tracker (fuel : Nat) (s : ST) (pos : Int) (s' : ST)
    (h : extend_suffix_tree fuel s pos = some s') :
    s'.leafEnd = pos ∧ s'.text = s.text ∧ s'.root = s.root ∧ s'.size = s.size := by
  obtain ⟨ht, hr, hl, hs⟩ := extendLoop_scalP fuel _ pos none s' h
  exact ⟨hl, ht, hr, hs⟩

theorem runPhases_scal :
    ∀ (ps : List Int) (fuel : Nat) (s : ST) (s' : ST),
      runPhases fuel s ps = some s' →
      (s'.text = s.text ∧ s'.root = s.root ∧ s'.size = s.size) ∧
      (ps = [] → s' = s) ∧
      (∀ q, ps.getLast? = some q → s'.leafEnd = q) := by
  intro ps
  induction ps with
  | nil =>
      intro fuel s s' h
      simp only [runPhases] at h
      cases h
      exact ⟨⟨rfl, rfl, rfl⟩, fun _ => rfl, by intro q hq; cases hq⟩
  | cons p ps ih =>
      intro fuel s s' h
      simp only [runPhases, Option.bind_eq_bind, Option.bind_eq_some] at h
      obtain ⟨s1, h1, h2⟩ := h
      obtain ⟨hle, ht, hr, hs⟩ := extend_suffix_tree_tracker fuel s p s1 h1
      obtain ⟨⟨ht2, hr2, hs2⟩, hnil, hlast⟩ := ih fuel s1 s' h2
      refine ⟨⟨ht2.trans ht, hr2.trans hr, hs2.trans hs⟩, fun hc => absurd hc (List.cons_ne_nil p ps), ?_⟩
      intro q hq
      cases ps with
      | nil =>
          simp only [List.getLast?_singleton] at hq
          cases hq
          rw [hnil rfl]
          exact hle
      | cons p2 ps2 =>
          rw [List.getLast?_cons_cons] at hq
          exact hlast q hq

end Ukk

namespace Ukk

theorem trimGo_scalP :
    ∀ (f : Nat) (nid : Nat) (s : ST) (i : Int) (s' : ST),
      trimGo nid f s i = some s' → ScalPres s s' := by
  intro f
  induction f with
  | zero =>
      intro nid s i s' h
      simp only [trimGo, pure] at h
      cases h
      exact ScalPres.refl s
  | succ f ih =>
      intro nid s i s' h
      simp only [trimGo, Option.bind_eq_bind, Option.bind_eq_some] at h
      obtain ⟨c, hc, s1, h1, h2⟩ := h
      have hs1 : ScalPres s s1 := by
        split at h1
        · simp only [Option.bind_eq_some] at h1
          obtain ⟨nd, _, h1⟩ := h1
          exact putN_scalP h1
        · simp only [pure] at h1
          cases h1
          exact ScalPres.refl s
      exact hs1.trans (ih nid s1 (i + 1) s' h2)

theorem trimLoop_scalP {s : ST} {nid : Nat} {i stop : Int} {s' : ST}
    (h : trimLoop s nid i stop = some s') : ScalPres s s' := by
  simp only [trimLoop] at h
  exact trimGo_scalP _ _ _ _ _ h

theorem dfsKids_scalP (visit : ST → Option Nat → Int → Option ST)
    (hv : ∀ s2 n h2 s3, visit s2 n h2 = some s3 → ScalPres s2 s3) :
    ∀ (L : List Nat) (s : ST) (nid : Nat) (lh : Int) (b : Bool) (s' : ST) (b' : Bool),
      dfsKids visit nid lh s L b = some (s', b') → ScalPres s s' := by
  intro L
  induction L with
  | nil =>
      intro s nid lh b s' b' h
      simp only [dfsKids] at h
      cases h
      exact ScalPres.refl s
  | cons i is ih =>
      intro s nid lh b s' b' h
      simp only [dfsKids, Option.bind_eq_bind, Option.bind_eq_some] at h
      obtain ⟨nd, hnd, h⟩ := h
      cases hCh : nd.children i with
      | none =>
          rw [hCh] at h
          exact ih s nid lh b s' b' h
      | some cid =>
          rw [hCh] at h
          simp only [Option.bind_eq_bind, Option.bind_eq_some] at h
          obtain ⟨el, hel, s1, h1, h2⟩ := h
          exact (hv _ _ _ _ h1).trans (ih s1 nid lh false s' b' h2)

theorem set_suffix_index_by_dfs_scalP :
    ∀ (f : Nat) (s : ST) (n : Option Nat) (lh : Int) (s' : ST),
      set_suffix_index_by_dfs f s n lh = some s' → ScalPres s s' := by
  intro f
  induction f with
  | zero => intro s n lh s' h; cases h
  | succ f ih =>
      intro s n lh s' h
      cases n with
      | none =>
          simp only [set_suffix_index_by_dfs] at h
          cases h
          exact ScalPres.refl s
      | some nid =>
          simp only [set_suffix_index_by_dfs, Option.bind_eq_bind, Option.bind_eq_some] at h
          obtain ⟨⟨s1, leaf⟩, h1, h2⟩ := h
          have hs1 : ScalPres s s1 :=
            dfsKids_scalP _ (fun s2 n2 lh2 s3 hh => ih s2 n2 lh2 s3 hh) _ s nid lh true s1 leaf h1
          cases leaf with
          | false =>
              rw [if_neg Bool.false_ne_true] at h2
              simp only [pure] at h2
              cases h2
              exact hs1
          | true =>
              rw [if_pos rfl] at h2
              simp only [Option.bind_eq_bind, Option.bind_eq_some] at h2
              obtain ⟨nd, hnd, s2, hTrim, nd2, hnd2, hPut⟩ := h2
              exact (hs1.trans (trimLoop_scalP hTrim)).trans (putN_scalP hPut)

/-- Last phase position of `posList`. -/
theorem posList_getLast (n : Nat) :
    (posList (n + 1)).getLast? = some (n : Int) := by
  simp only [posList, List.range_succ, List.map_append]
  exact List.getLast?_concat _

theorem build_suffix_tree_tracker (text : List Nat) (s' : ST)
    (h : build_suffix_tree text = some s') :
    s'.leafEnd = (text.length : Int) - 1 := by
  simp only [build_suffix_tree, buildPhasesOnly, Option.bind_eq_bind,
    Option.bind_eq_some] at h
  obtain ⟨s1, h1, h2⟩ := h
  have hd := (set_suffix_index_by_dfs_scalP _ _ _ _ _ h2).2.2.1
  obtain ⟨_, hnil, hlast⟩ := runPhases_scal _ _ _ _ h1
  rw [hd]
  cases hn : text.length with
  | zero =>
      rw [hn] at hnil
      have := hnil (by simp [posList])
      rw [this]
      simp [buildStart, initState, pushN]
  | succ m =>
      rw [hn] at hlast
      rw [hlast (m : Int) (posList_getLast m)]
      simp

end Ukk

namespace Ukk

/-- C6: the Global End Tracker.  (1) `__init__` starts it at `-1` and the
`build_suffix_tree` preamble keeps it there; (2) the extension loop never
writes it, so the single Rule-1 write at phase entry is the only write of a
phase; (3) a completed phase leaves it exactly at `pos`, so over the phases
`0, 1, ..., n-1` it increases by one each phase; (4) the resolved `edge_end`
of every node holding the tracker reference equals the tracker's current
value; (5) advancing the tracker changes no node yet lengthens every
tracker-referencing edge; (6) the annotation pass never writes it;
(7) after a completed build it equals `len(text) - 1`. -/
theorem c6_global_end_tracker :
    (∀ text : List Nat,
      (initState text).leafEnd = -1 ∧ (buildStart text).leafEnd = -1)
    ∧ (∀ fuel s pos lnn s', extendLoop fuel s pos lnn = some s' →
        s'.leafEnd = s.leafEnd)
    ∧ (∀ fuel s pos s', extend_suffix_tree fuel s pos = some s' →
        s'.leafEnd = pos)
    ∧ (∀ (s : ST) (nd : SuffixTreeNode), nd.endv = EEnd.tracker →
        resolveEnd s nd.endv = s.leafEnd)
    ∧ (∀ (s : ST) (v : Int),
        ({ s with leafEnd := v } : ST).nodes = s.nodes ∧
        resolveEnd { s with leafEnd := v } EEnd.tracker = v)
    ∧ (∀ fuel s n lh s', set_suffix_index_by_dfs fuel s n lh = some s' →
        s'.leafEnd = s.leafEnd)
    ∧ (∀ text s', build_suffix_tree text = some s' →
        s'.leafEnd = (text.length : Int) - 1) := by
  refine ⟨fun text => ⟨rfl, rfl⟩, ?_, ?_, ?_, ?_, ?_, ?_⟩
  · intro fuel s pos lnn s' h
    exact (extendLoop_scalP fuel s pos lnn s' h).2.2.1
  · intro fuel s pos s' h
    exact (extend_suffix_tree_tracker fuel s pos s' h).1
  · intro s nd h
    rw [h]
    rfl
  · intro s v
    exact ⟨rfl, rfl⟩
  · intro fuel s n lh s' h
    exact (set_suffix_index_by_dfs_scalP fuel s n lh s' h).2.2.1
  · exact build_suffix_tree_tracker

/-- Witness inputs for C6 over the text `"ab#"`. -/
def w6text : List Nat := [97, 98, 35]

def w6s0 : ST := buildStart w6text

def w6loopIn : ST := { w6s0 with leafEnd := 0, remainingSuffixCount := 1 }

def w6loopOut : ST := (extendLoop (phaseFuel w6text) w6loopIn 0 none).getD default

def w6s1 : ST := (extend_suffix_tree (phaseFuel w6text) w6s0 0).getD default

def w6pre : ST := (buildPhasesOnly w6text).getD default

def w6dfs : ST :=
  (set_suffix_index_by_dfs (dfsFuel w6pre) w6pre (some w6pre.root) 0).getD default

def w6b : ST := (build_suffix_tree w6text).getD default

/-- Witness for C6 at the concrete text `"ab#"`, exercising every conjunct
with its hypotheses discharged by evaluation. -/
theorem c6_global_end_tracker_witness :
    ((initState w6text).leafEnd = -1 ∧ (buildStart w6text).leafEnd = -1)
    ∧ w6loopOut.leafEnd = w6loopIn.leafEnd
    ∧ w6s1.leafEnd = 0
    ∧ resolveEnd w6s1 ((getN w6s1 1).getD default).endv = w6s1.leafEnd
    ∧ (({ w6s1 with leafEnd := 5 } : ST).nodes = w6s1.nodes ∧
        resolveEnd { w6s1 with leafEnd := 5 } EEnd.tracker = 5)
    ∧ w6dfs.leafEnd = w6pre.leafEnd
    ∧ w6b.leafEnd = (w6text.length : Int) - 1 := by
  refine ⟨c6_global_end_tracker.1 w6text, ?_, ?_, ?_, ?_, ?_, ?_⟩
  · exact c6_global_end_tracker.2.1 (phaseFuel w6text) w6loopIn 0 none w6loopOut
      (eq_some_getD _ _ (by rfl))
  · exact c6_global_end_tracker.2.2.1 (phaseFuel w6text) w6s0 0 w6s1
      (eq_some_getD _ _ (by rfl))
  · exact c6_global_end_tracker.2.2.2.1 w6s1 ((getN w6s1 1).getD default) (by rfl)
  · exact c6_global_end_tracker.2.2.2.2.1 w6s1 5
  · exact c6_global_end_tracker.2.2.2.2.2.1 (dfsFuel w6pre) w6pre (some w6pre.root) 0 w6dfs
      (eq_some_getD _ _ (by rfl))
  · exact c6_global_end_tracker.2.2.2.2.2.2 w6text w6b (eq_some_getD _ _ (by rfl))

end Ukk

namespace Ukk

theorem childGet_lt (nd : SuffixTreeNode) (c : Nat) (h : c < MAX_CHAR) :
    childGet nd c = some (nd.children c) := by
  simp [childGet, h]

/-- Analysis of a successful `putN`. -/
theorem putN_spec {s : ST} {i : Nat} {nd : SuffixTreeNode} {s' : ST}
    (h : putN s i nd = some s') :
    getN s' i = some nd ∧ (∀ u, u ≠ i → getN s' u = getN s u) ∧
    s'.nodes.length = s.nodes.length ∧ s'.text = s.text ∧ s'.root = s.root ∧
    s'.activeNode = s.activeNode ∧ s'.activeEdge = s.activeEdge ∧
    s'.activeLength = s.activeLength ∧ s'.leafEnd = s.leafEnd ∧
    s'.remainingSuffixCount = s.remainingSuffixCount ∧ s'.size = s.size := by
  obtain ⟨ht, hr, ha, hae, hal, hl, hrc, hs, hlen⟩ := putN_scal s i nd s' h
  exact ⟨getN_putN_self s i nd s' h, fun u hu => getN_putN_ne s i nd s' h u hu,
    hlen, ht, hr, ha, hae, hal, hl, hrc, hs⟩

/-- Analysis of a successful `childSet`. -/
theorem childSet_spec {nd : SuffixTreeNode} {c : Nat} {w : Option Nat}
    {nd2 : SuffixTreeNode} (h : childSet nd c w = some nd2) :
    c < MAX_CHAR ∧
    nd2 = { nd with children := fun x => if x = c then w else nd.children x } := by
  simp only [childSet] at h
  split at h
  · cases h
    exact ⟨by assumption, rfl⟩
  · cases h

/-- Analysis of a successful `setChildOf`. -/
theorem setChildOf_spec {s : ST} {v c : Nat} {w : Option Nat} {s' : ST}
    (h : setChildOf s v c w = some s') :
    ∃ nd, getN s v = some nd ∧ c < MAX_CHAR ∧
      getN s' v = some { nd with children := fun x => if x = c then w else nd.children x } ∧
      (∀ u, u ≠ v → getN s' u = getN s u) ∧
      s'.nodes.length = s.nodes.length ∧ s'.text = s.text ∧ s'.root = s.root ∧
      s'.activeNode = s.activeNode ∧ s'.activeEdge = s.activeEdge ∧
      s'.activeLength = s.activeLength ∧ s'.leafEnd = s.leafEnd ∧
      s'.remainingSuffixCount = s.remainingSuffixCount ∧ s'.size = s.size := by
  simp only [setChildOf, Option.bind_eq_bind, Option.bind_eq_some] at h
  obtain ⟨nd, hnd, nd2, hset, hput⟩ := h
  obtain ⟨hc, hnd2⟩ := childSet_spec hset
  subst hnd2
  obtain ⟨h1, h2, h3, h4, h5, h6, h7, h8, h9, h10, h11⟩ := putN_spec hput
  exact ⟨nd, hnd, hc, h1, h2, h3, h4, h5, h6, h7, h8, h9, h10, h11⟩

/-- Analysis of a successful `finishStep`: always a `step` with the same
arena and text. -/
theorem finishStep_spec {s : ST} {pos : Int} {lnn : Option Nat} {r : StepRes}
    (h : finishStep s pos lnn = some r) :
    ∃ s2, r = StepRes.step s2 lnn ∧ s2.nodes = s.nodes ∧ s2.text = s.text := by
  simp only [finishStep, Option.bind_eq_bind] at h
  split at h
  · cases h
    exact ⟨_, rfl, rfl, rfl⟩
  · split at h
    · cases h
      exact ⟨_, rfl, rfl, rfl⟩
    · simp only [Option.bind_eq_some] at h
      obtain ⟨an, _, h⟩ := h
      cases hL : an.suffixLink with
      | none => rw [hL] at h; cases h
      | some l =>
          rw [hL] at h
          cases h
          exact ⟨_, rfl, rfl, rfl⟩

/-- In the fall-off-mid-edge situation the extension body runs the split. -/
theorem extendStep_split_branch (s : ST) (pos : Int) (lnn : Option Nat)
    (ce nextt : Nat) (an nd : SuffixTreeNode) (el : Int) (c1 cp : Nat)
    (hAL : ¬s.activeLength = 0)
    (hce : pyGet s.text s.activeEdge = some ce)
    (han : getN s s.activeNode = some an)
    (hceB : ce < MAX_CHAR)
    (hchild : an.children ce = some nextt)
    (hel : edge_length s nextt = some el)
    (helgt : s.activeLength < el)
    (hnd : getN s nextt = some nd)
    (hc1 : pyGet s.text (nd.start + s.activeLength) = some c1)
    (hcp : pyGet s.text pos = some cp)
    (hne : ¬c1 = cp) :
    extendStep s pos lnn = doSplit s pos ce nextt nd cp lnn := by
  simp only [extendStep, if_neg hAL, hce, han, childGet_lt _ _ hceB, hchild,
    walk_down, hel, if_neg (not_le.mpr helgt), Option.bind_eq_bind,
    Option.some_bind, if_neg Bool.false_ne_true, hnd, hc1, hcp, if_neg hne]

end Ukk

namespace Ukk

/-- C7: in the split branch, the overwrite of the active node's child slot
re-attaches the previous child under the new internal node (start advanced
by `activeLength`) in a slot distinct from the new leaf's, and no other
existing node changes. -/
theorem c7_split_preserves_subtree (s : ST) (pos : Int) (ce nextt : Nat)
    (an nd : SuffixTreeNode) (el : Int) (c1 cp : Nat) (r : StepRes)
    (hAL : ¬s.activeLength = 0)
    (hce : pyGet s.text s.activeEdge = some ce)
    (han : getN s s.activeNode = some an)
    (hceB : ce < MAX_CHAR)
    (hchild : an.children ce = some nextt)
    (hel : edge_length s nextt = some el)
    (helgt : s.activeLength < el)
    (hnd : getN s nextt = some nd)
    (hc1 : pyGet s.text (nd.start + s.activeLength) = some c1)
    (hcp : pyGet s.text pos = some cp)
    (hne : ¬c1 = cp)
    (hAn : s.activeNode < s.nodes.length)
    (hnB : nextt < s.nodes.length)
    (hNl : nextt ≠ s.activeNode)
    (hrun : extendStep s pos none = some r) :
    ∃ s', r = StepRes.step s' (some s.nodes.length) ∧
      s'.text = s.text ∧
      s'.nodes.length = s.nodes.length + 2 ∧
      (∃ an2, getN s' s.activeNode = some an2 ∧
        an2.children ce = some s.nodes.length ∧
        (∀ c, c ≠ ce → an2.children c = an.children c)) ∧
      (∃ sp, getN s' s.nodes.length = some sp ∧
        sp.start = nd.start ∧
        sp.endv = EEnd.fixed (nd.start + s.activeLength - 1) ∧
        sp.children c1 = some nextt ∧
        sp.children cp = some (s.nodes.length + 1)) ∧
      getN s' nextt = some { nd with start := nd.start + s.activeLength } ∧
      getN s' (s.nodes.length + 1) = some (newNode pos EEnd.tracker none) ∧
      ¬c1 = cp ∧
      (∀ u, u < s.nodes.length → u ≠ s.activeNode → u ≠ nextt →
        getN s' u = getN s u) := by
  rw [extendStep_split_branch s pos none ce nextt an nd el c1 cp hAL hce han
    hceB hchild hel helgt hnd hc1 hcp hne] at hrun
  simp only [doSplit, pushN, Option.bind_eq_bind, Option.bind_eq_some] at hrun
  obtain ⟨s2, hA, s4, hB, nd4, hG4, s5, hP, cn, hC, s6, hD, s7, hE, hF⟩ := hrun
  set splitNode : SuffixTreeNode :=
    newNode nd.start (EEnd.fixed (nd.start + s.activeLength - 1)) (some s.root) with hsplitdef
  set leafNode : SuffixTreeNode := newNode pos EEnd.tracker none with hleafdef
  -- step A: split node hung into the active node's slot ce
  obtain ⟨an1, hgan1, _, hs2v, hs2o, hs2len, hs2t, hs2r, hs2a, hs2e, hs2al,
    hs2l, hs2rc, hs2sz⟩ := setChildOf_spec hA
  have hga : getN ({ s with nodes := s.nodes ++ [splitNode] } : ST) s.activeNode = some an := by
    show (s.nodes ++ [splitNode]).get? s.activeNode = some an
    rw [listGetAppendLt _ _ _ hAn]
    exact han
  rw [hga] at hgan1
  injection hgan1 with hgan1
  subst hgan1
  have hlen2 : s2.nodes.length = s.nodes.length + 1 := by
    rw [hs2len]
    simp
  have hNa : s.nodes.length ≠ s.activeNode := (Nat.ne_of_lt hAn).symm
  have hna : nextt ≠ s.nodes.length := Nat.ne_of_lt hnB
  -- step B: leaf pushed, then hung into the split's slot cp
  rw [hlen2] at hB
  obtain ⟨spl, hgspl, _, hs4v, hs4o, hs4len, hs4t, hs4r, hs4a, hs4e, hs4al,
    hs4l, hs4rc, hs4sz⟩ := setChildOf_spec hB
  have hgspl2 : getN ({ s2 with nodes := s2.nodes ++ [leafNode] } : ST) s.nodes.length
      = some splitNode := by
    show (s2.nodes ++ [leafNode]).get? s.nodes.length = some splitNode
    rw [listGetAppendLt _ _ _ (by omega)]
    show getN s2 s.nodes.length = some splitNode
    rw [hs2o _ hNa]
    show (s.nodes ++ [splitNode]).get? s.nodes.length = some splitNode
    exact listGetConcatLen _ _
  rw [hgspl2] at hgspl
  injection hgspl with hgspl
  subst hgspl
  have hlen4 : s4.nodes.length = s.nodes.length + 2 := by
    rw [hs4len]
    show (s2.nodes ++ [leafNode]).length = s.nodes.length + 2
    simp [hlen2]
  -- identify the node re-parented by the start update
  have hg4 : getN s4 nextt = some nd := by
    rw [hs4o _ hna]
    show (s2.nodes ++ [leafNode]).get? nextt = some nd
    rw [listGetAppendLt _ _ _ (by omega)]
    show getN s2 nextt = some nd
    rw [hs2o _ hNl]
    show (s.nodes ++ [splitNode]).get? nextt = some nd
    rw [listGetAppendLt _ _ _ hnB]
    exact hnd
  rw [hg4] at hG4
  injection hG4 with hG4
  subst hG4
  -- step P: start advanced
  obtain ⟨hs5v, hs5o, hs5len, hs5t, hs5r, hs5a, hs5e, hs5al, hs5l, hs5rc,
    hs5sz⟩ := putN_spec hP
  have hal4 : s4.activeLength = s.activeLength := by
    rw [hs4al]
    show s2.activeLength = s.activeLength
    rw [hs2al]
  have ht5 : s5.text = s.text := by
    rw [hs5t, hs4t]
    show s2.text = s.text
    rw [hs2t]
  rw [ht5, hal4, hc1] at hC
  injection hC with hC
  subst hC
  rw [hal4] at hs5v
  -- step D: old child re-attached under the split in slot c1
  obtain ⟨sp1, hgsp1, _, hs6v, hs6o, hs6len, hs6t, hs6r, hs6a, hs6e, hs6al,
    hs6l, hs6rc, hs6sz⟩ := setChildOf_spec hD
  have hgsp1b := (hs5o s.nodes.length (Ne.symm hna)).trans hs4v
  rw [hgsp1b] at hgsp1
  injection hgsp1 with hgsp1
  subst hgsp1
  -- the lnn is clear, so s7 = s6
  simp only [resolveLnn, pure] at hE
  injection hE with hE
  subst hE
  -- finish
  obtain ⟨sF, hrF, hnodesF, htF⟩ := finishStep_spec hF
  have hgF : ∀ u, getN sF u = getN s6 u := by
    intro u
    show sF.nodes.get? u = s6.nodes.get? u
    rw [hnodesF]
  refine ⟨sF, hrF, ?_, ?_, ?_, ?_, ?_, ?_, hne, ?_⟩
  · rw [htF, hs6t, ht5]
  · have : sF.nodes.length = s6.nodes.length := by rw [hnodesF]
    rw [this, hs6len, hs5len, hlen4]
  · have hAn2 : getN sF s.activeNode =
        some { an with children := fun x => if x = ce then some s.nodes.length else an.children x } := by
      rw [hgF, hs6o _ (Nat.ne_of_lt hAn), hs5o _ (Ne.symm hNl),
        hs4o _ (Nat.ne_of_lt hAn)]
      show (s2.nodes ++ [leafNode]).get? s.activeNode = _
      rw [listGetAppendLt _ _ _ (by omega)]
      exact hs2v
    refine ⟨_, hAn2, ?_, ?_⟩
    · simp
    · intro c hc
      simp [hc]
  · refine ⟨_, (hgF _).trans hs6v, rfl, rfl, ?_, ?_⟩
    · simp
    · have hcpc1 : cp ≠ c1 := fun h => hne h.symm
      simp [hcpc1, hne]
  · rw [hgF, hs6o _ hna]
    exact hs5v
  · rw [hgF, hs6o _ (by omega), hs5o _ (by omega), hs4o _ (by omega)]
    show (s2.nodes ++ [leafNode]).get? (s.nodes.length + 1) = some leafNode
    rw [← hlen2]
    exact listGetConcatLen _ _
  · intro u hu h1 h2
    rw [hgF, hs6o _ (Nat.ne_of_lt hu), hs5o _ h2, hs4o _ (Nat.ne_of_lt hu)]
    show (s2.nodes ++ [leafNode]).get? u = getN s u
    rw [listGetAppendLt _ _ _ (by omega)]
    show getN s2 u = getN s u
    rw [hs2o _ h1]
    show (s.nodes ++ [splitNode]).get? u = getN s u
    rw [listGetAppendLt _ _ _ hu]
    rfl

end Ukk

namespace Ukk

instance : Inhabited StepRes := ⟨StepRes.halt default⟩

/-- Witness pre-state for C7: the state of the `"aab"` build at the entry of
the phase-2 extension loop (tracker advanced, counter bumped), whose first
iteration falls off mid-edge and splits. -/
def w7 : ST :=
  let b := (runPhases (phaseFuel [97, 97, 98]) (buildStart [97, 97, 98]) [0, 1]).getD default
  { b with leafEnd := 2, remainingSuffixCount := b.remainingSuffixCount + 1 }

def w7an : SuffixTreeNode := (getN w7 w7.activeNode).getD default

def w7nd : SuffixTreeNode := (getN w7 1).getD default

def w7r : StepRes := (extendStep w7 2 none).getD default

/-- Witness for C7 at the concrete split of the `"aab"` build. -/
theorem c7_split_preserves_subtree_witness :
    ∃ s', w7r = StepRes.step s' (some w7.nodes.length) ∧
      s'.text = w7.text ∧
      s'.nodes.length = w7.nodes.length + 2 ∧
      (∃ an2, getN s' w7.activeNode = some an2 ∧
        an2.children 97 = some w7.nodes.length ∧
        (∀ c, c ≠ 97 → an2.children c = w7an.children c)) ∧
      (∃ sp, getN s' w7.nodes.length = some sp ∧
        sp.start = w7nd.start ∧
        sp.endv = EEnd.fixed (w7nd.start + w7.activeLength - 1) ∧
        sp.children 97 = some 1 ∧
        sp.children 98 = some (w7.nodes.length + 1)) ∧
      getN s' 1 = some { w7nd with start := w7nd.start + w7.activeLength } ∧
      getN s' (w7.nodes.length + 1) = some (newNode 2 EEnd.tracker none) ∧
      ¬(97 : Nat) = 98 ∧
      (∀ u, u < w7.nodes.length → u ≠ w7.activeNode → u ≠ 1 →
        getN s' u = getN w7 u) :=
  c7_split_preserves_subtree w7 2 97 1 w7an w7nd 3 97 98 w7r
    (by decide)
    (by rfl)
    (eq_some_getD _ _ (by rfl))
    (by decide)
    (by rfl)
    (by rfl)
    (by decide)
    (eq_some_getD _ _ (by rfl))
    (by rfl)
    (by rfl)
    (by decide)
    (by decide)
    (by decide)
    (by decide)
    (eq_some_getD _ _ (by rfl))

end Ukk

/-! ## Claim C5: the annotation pass -/

namespace Ukk

/-- Child of `v` at symbol `c` (read in a given state). -/
def childOf (s : ST) (v : Nat) (c : Nat) : Option Nat :=
  (getN s v).bind fun nd => nd.children c

/-- All children of `v` in slot order. -/
def childList (s : ST) (v : Nat) : List Nat :=
  (List.range MAX_CHAR).filterMap (childOf s v)

/-- Depth-bounded preorder visit list of the subtree of `v`, following child
slots in ascending order, mirroring the recursion structure of
`set_suffix_index_by_dfs`. -/
def visitT : Nat → ST → Nat → List Nat
  | 0, _, v => [v]
  | f + 1, s, v => v :: (childList s v).flatMap (visitT f s)

/-- Follow child slots along a list of symbols. -/
def childPath (s : ST) : Nat → List Nat → Option Nat
  | v, [] => some v
  | v, c :: cs => do
      let w ← childOf s v c
      childPath s w cs

/-- Total label length (in symbols) along a child path, with edge lengths
resolved in the given state. -/
def pathHeight (s : ST) : Nat → List Nat → Option Int
  | _, [] => some 0
  | v, c :: cs => do
      let w ← childOf s v c
      let el ← edge_length s w
      let rest ← pathHeight s w cs
      some (el + rest)

/-- Position of the last `'#'` among the `f` text positions starting at `i`
(`none` when there is none). -/
def lastSharp (t : List Nat) : Nat → Int → Option Int
  | 0, _ => none
  | f + 1, i =>
      match lastSharp t f (i + 1) with
      | some j => some j
      | none => if pyGet t i = some sharpC then some i else none

/-- The edge end the trimming loop leaves behind: the last `'#'` position in
`[i, stop]` when present, the original end otherwise. -/
def trimEndv (t : List Nat) (i stop : Int) (e : EEnd) : EEnd :=
  match lastSharp t (stop + 1 - i).toNat i with
  | some j => EEnd.fixed j
  | none => e

/-- The pre-annotation tree of `"a##"` (codes `[97, 35, 35]`). -/
def preASS : ST := (buildPhasesOnly [97, 35, 35]).getD default

/-- The annotated tree of `"a##"`. -/
def bASS : ST := (build_suffix_tree [97, 35, 35]).getD default

/-- The annotated tree of `"a#b"` (codes `[97, 35, 98]`). -/
def bAXB : ST := (build_suffix_tree [97, 35, 98]).getD default

/-- C5 counterexample.  In the built tree of `"a##"` the leaf hanging off the
root at slot `97` carries label `[0, 2]` = `"a##"`, whose trailing sentinel
run starts at position `1`; the claim ("trim to stop at the first trailing
sentinel") demands `end = 1`, but the annotation loop re-trims at every
sentinel and leaves the last one, `end = 2`.  In the built tree of `"a#b"`
the same leaf shows that `suffix_index` is computed from the label height
before trimming: the leaf is trimmed to `[0, 1]` (length 2) yet
`suffix_index = 0 = 3 - 3`, not `3 - 2 = 1`. -/
theorem c5_trim_counterexample :
    ((getN bASS bASS.root).map (fun nd => nd.children 97) = some (some 1)) ∧
    childList bASS 1 = [] ∧
    ((getN bASS 1).map (fun nd => (nd.start, nd.endv)) = some (0, EEnd.fixed 2)) ∧
    pyGet bASS.text 1 = some sharpC ∧
    pyGet bASS.text 2 = some sharpC ∧
    ¬((getN bASS 1).map (fun nd => nd.endv) = some (EEnd.fixed 1)) ∧
    ((getN bAXB 1).map (fun nd => (nd.suffixIndex, nd.endv)) = some (0, EEnd.fixed 1)) ∧
    bAXB.size = 3 :=
  ⟨by decide, by decide, by decide, by decide, by decide, by decide, by decide, by decide⟩

end Ukk

namespace Ukk

/-- The annotation pass writes only `endv` and `suffixIndex`: arena length,
scalar frame, and every node's children table and start are preserved. -/
def StructPres (s s' : ST) : Prop :=
  s'.nodes.length = s.nodes.length ∧ s'.text = s.text ∧ s'.leafEnd = s.leafEnd ∧
  s'.size = s.size ∧ s'.root = s.root ∧
  ∀ u, (getN s' u).map (fun nd => (nd.children, nd.start)) =
       (getN s u).map (fun nd => (nd.children, nd.start))

theorem structPres_refl (s : ST) : StructPres s s :=
  ⟨rfl, rfl, rfl, rfl, rfl, fun _ => rfl⟩

theorem structPres_trans {s1 s2 s3 : ST} (h1 : StructPres s1 s2)
    (h2 : StructPres s2 s3) : StructPres s1 s3 :=
  ⟨h2.1.trans h1.1, h2.2.1.trans h1.2.1, h2.2.2.1.trans h1.2.2.1,
   h2.2.2.2.1.trans h1.2.2.2.1, h2.2.2.2.2.1.trans h1.2.2.2.2.1,
   fun u => (h2.2.2.2.2.2 u).trans (h1.2.2.2.2.2 u)⟩

/-- Writing back a node with unchanged children and start preserves the
structure. -/
theorem putN_structP {s : ST} {i : Nat} {nd nd' : SuffixTreeNode} {s' : ST}
    (hg : getN s i = some nd) (h : putN s i nd' = some s')
    (hch : nd'.children = nd.children) (hst : nd'.start = nd.start) :
    StructPres s s' := by
  obtain ⟨h1, h2, h3, h4, h5, h6, h7, h8, h9, h10, h11⟩ := putN_spec h
  refine ⟨h3, h4, h9, h11, h5, ?_⟩
  intro u
  by_cases hu : u = i
  · subst hu
    rw [h1, hg]
    simp [hch, hst]
  · rw [h2 u hu]

/-- Case split on a node under structure preservation. -/
theorem StructPres.fields {s s' : ST} (h : StructPres s s') {v : Nat}
    {nd : SuffixTreeNode} (hg : getN s v = some nd) :
    ∃ nd', getN s' v = some nd' ∧ nd'.children = nd.children ∧
      nd'.start = nd.start := by
  have h6 := h.2.2.2.2.2 v
  rw [hg] at h6
  cases hg2 : getN s' v with
  | none => rw [hg2] at h6; cases h6
  | some nd' =>
      rw [hg2] at h6
      simp at h6
      exact ⟨nd', rfl, h6.1, h6.2⟩

theorem StructPres.none {s s' : ST} (h : StructPres s s') {v : Nat}
    (hg : getN s v = none) : getN s' v = none := by
  have h6 := h.2.2.2.2.2 v
  rw [hg] at h6
  cases hg2 : getN s' v with
  | none => rfl
  | some nd' => rw [hg2] at h6; cases h6

theorem childOf_congr {s s' : ST} (h : StructPres s s') (v c : Nat) :
    childOf s' v c = childOf s v c := by
  unfold childOf
  cases hg : getN s v with
  | none => rw [h.none hg]
  | some nd =>
      obtain ⟨nd', hg', hch, _⟩ := h.fields hg
      rw [hg']
      simp [hch]

theorem listFlatMapCongr {α β : Type _} (l : List α) (f g : α → List β)
    (h : ∀ a ∈ l, f a = g a) : l.flatMap f = l.flatMap g := by
  induction l with
  | nil => rfl
  | cons x xs ih =>
      simp only [List.flatMap_cons]
      rw [h x (List.mem_cons_self x xs), ih (fun a ha => h a (List.mem_cons_of_mem x ha))]

theorem childList_congr {s s' : ST} (h : StructPres s s') (v : Nat) :
    childList s' v = childList s v := by
  unfold childList
  exact List.filterMap_congr (fun c _ => childOf_congr h v c)

theorem visitT_congr {s s' : ST} (h : StructPres s s') :
    ∀ (f : Nat) (v : Nat), visitT f s' v = visitT f s v := by
  intro f
  induction f with
  | zero => intro v; rfl
  | succ f ih =>
      intro v
      simp only [visitT, childList_congr h]
      rw [listFlatMapCongr _ _ _ (fun w _ => ih w)]

theorem childPath_congr {s s' : ST} (h : StructPres s s') :
    ∀ (p : List Nat) (v : Nat), childPath s' v p = childPath s v p := by
  intro p
  induction p with
  | nil => intro v; rfl
  | cons c cs ih =>
      intro v
      simp only [childPath, childOf_congr h, Option.bind_eq_bind]
      cases childOf s v c with
      | none => rfl
      | some w => simp only [Option.some_bind]; exact ih w

end Ukk

namespace Ukk

theorem resolveEnd_congr {s s' : ST} (hle : s'.leafEnd = s.leafEnd) (e : EEnd) :
    resolveEnd s' e = resolveEnd s e := by
  cases e with
  | tracker => exact hle
  | fixed v => rfl

theorem edge_length_congr {s s' : ST} {w : Nat}
    (hg : getN s' w = getN s w) (hle : s'.leafEnd = s.leafEnd)
    (hr : s'.root = s.root) : edge_length s' w = edge_length s w := by
  unfold edge_length
  rw [hg, hr]
  simp only [resolveEnd_congr hle]

theorem trimGo_structP :
    ∀ (f : Nat) (nid : Nat) (s : ST) (i : Int) (s' : ST),
      trimGo nid f s i = some s' → StructPres s s' := by
  intro f
  induction f with
  | zero =>
      intro nid s i s' h
      simp only [trimGo, pure] at h
      cases h
      exact structPres_refl s
  | succ f ih =>
      intro nid s i s' h
      simp only [trimGo, Option.bind_eq_bind, Option.bind_eq_some] at h
      obtain ⟨c, hc, s1, h1, h2⟩ := h
      have hs1 : StructPres s s1 := by
        split at h1
        · simp only [Option.bind_eq_some] at h1
          obtain ⟨nd, hnd, h1⟩ := h1
          exact putN_structP hnd h1 rfl rfl
        · simp only [pure] at h1
          cases h1
          exact structPres_refl s
      exact structPres_trans hs1 (ih nid s1 (i + 1) s' h2)

/-- Characterization of the trimming loop: only `nid` changes, its
children/start/link/index are kept, and its end becomes the last sharp in
the scanned range (or stays). -/
theorem trimGo_out :
    ∀ (f : Nat) (nid : Nat) (s : ST) (i : Int) (s' : ST),
      trimGo nid f s i = some s' →
      (∀ u, u ≠ nid → getN s' u = getN s u) ∧
      ((getN s' nid).map (fun nd => (nd.children, nd.start, nd.suffixLink, nd.suffixIndex)) =
        (getN s nid).map (fun nd => (nd.children, nd.start, nd.suffixLink, nd.suffixIndex))) ∧
      ((getN s' nid).map (fun nd => nd.endv) =
        match lastSharp s.text f i with
        | some j => (getN s nid).map (fun _ => EEnd.fixed j)
        | none => (getN s nid).map (fun nd => nd.endv)) := by
  intro f
  induction f with
  | zero =>
      intro nid s i s' h
      simp only [trimGo, pure] at h
      cases h
      exact ⟨fun _ _ => rfl, rfl, rfl⟩
  | succ f ih =>
      intro nid s i s' h
      simp only [trimGo, Option.bind_eq_bind, Option.bind_eq_some] at h
      obtain ⟨c, hc, s1, h1, h2⟩ := h
      obtain ⟨ho, hkeep, hend⟩ := ih nid s1 (i + 1) s' h2
      have htext1 : s1.text = s.text := by
        split at h1
        · simp only [Option.bind_eq_some] at h1
          obtain ⟨nd, _, h1⟩ := h1
          exact (putN_scalP h1).1
        · simp only [pure] at h1
          cases h1
          rfl
      rw [htext1] at hend
      by_cases hsharp : c = sharpC
      · -- a write happened at i
        rw [if_pos hsharp] at h1
        simp only [Option.bind_eq_some] at h1
        obtain ⟨nd, hnd, h1⟩ := h1
        obtain ⟨hv, hother, _, _, _, _, _, _, _, _, _⟩ := putN_spec h1
        subst hsharp
        refine ⟨?_, ?_, ?_⟩
        · intro u hu
          rw [ho u hu, hother u hu]
        · rw [hkeep, hv, hnd]
          rfl
        · cases hls : lastSharp s.text f (i + 1) with
          | some j =>
              rw [hls] at hend
              have hend2 : Option.map (fun nd => nd.endv) (getN s' nid) =
                  Option.map (fun _ => EEnd.fixed j) (getN s1 nid) := hend
              simp only [lastSharp, hls]
              rw [hend2, hv, hnd]
              rfl
          | none =>
              rw [hls] at hend
              have hend2 : Option.map (fun nd => nd.endv) (getN s' nid) =
                  Option.map (fun nd => nd.endv) (getN s1 nid) := hend
              simp only [lastSharp, hls, hc]
              rw [hend2, hv, hnd]
              rfl
      · rw [if_neg hsharp] at h1
        simp only [pure] at h1
        cases h1
        refine ⟨ho, hkeep, ?_⟩
        have hcs : ¬(pyGet s.text i = some sharpC) := by
          rw [hc]
          intro hx
          injection hx with hx
          exact hsharp hx
        cases hls : lastSharp s.text f (i + 1) with
        | some j =>
            rw [hls] at hend
            have hend2 : Option.map (fun nd => nd.endv) (getN s' nid) =
                Option.map (fun _ => EEnd.fixed j) (getN s nid) := hend
            simp only [lastSharp, hls, if_neg hcs]
            exact hend2
        | none =>
            rw [hls] at hend
            have hend2 : Option.map (fun nd => nd.endv) (getN s' nid) =
                Option.map (fun nd => nd.endv) (getN s nid) := hend
            simp only [lastSharp, hls, if_neg hcs]
            exact hend2

end Ukk

namespace Ukk

theorem dfsKids_structP (visit : ST → Option Nat → Int → Option ST)
    (hv : ∀ s2 n h2 s3, visit s2 n h2 = some s3 → StructPres s2 s3) :
    ∀ (L : List Nat) (s : ST) (nid : Nat) (lh : Int) (b : Bool) (s1 : ST) (b1 : Bool),
      dfsKids visit nid lh s L b = some (s1, b1) → StructPres s s1 := by
  intro L
  induction L with
  | nil =>
      intro s nid lh b s1 b1 h
      simp only [dfsKids] at h
      cases h
      exact structPres_refl s
  | cons i is ih =>
      intro s nid lh b s1 b1 h
      simp only [dfsKids, Option.bind_eq_bind, Option.bind_eq_some] at h
      obtain ⟨nd, hnd, h⟩ := h
      cases hCh : nd.children i with
      | none =>
          rw [hCh] at h
          exact ih s nid lh b s1 b1 h
      | some cid =>
          rw [hCh] at h
          simp only [Option.bind_eq_bind, Option.bind_eq_some] at h
          obtain ⟨el, hel, sb, h1, h2⟩ := h
          exact structPres_trans (hv _ _ _ _ h1) (ih sb nid lh false s1 b1 h2)

theorem dfs_structP :
    ∀ (f : Nat) (s : ST) (n : Option Nat) (lh : Int) (s' : ST),
      set_suffix_index_by_dfs f s n lh = some s' → StructPres s s' := by
  intro f
  induction f with
  | zero => intro s n lh s' h; cases h
  | succ f ih =>
      intro s n lh s' h
      cases n with
      | none =>
          simp only [set_suffix_index_by_dfs] at h
          cases h
          exact structPres_refl s
      | some nid =>
          simp only [set_suffix_index_by_dfs, Option.bind_eq_bind, Option.bind_eq_some] at h
          obtain ⟨⟨s1, leaf⟩, h1, h2⟩ := h
          have hs1 : StructPres s s1 :=
            dfsKids_structP _ (fun s2 n2 lh2 s3 hh => ih s2 n2 lh2 s3 hh) _ s nid lh true s1 leaf h1
          cases leaf with
          | false =>
              rw [if_neg Bool.false_ne_true] at h2
              simp only [pure] at h2
              cases h2
              exact hs1
          | true =>
              rw [if_pos rfl] at h2
              simp only [Option.bind_eq_bind, Option.bind_eq_some] at h2
              obtain ⟨nd, hnd, s2, hTrim, nd2, hnd2, hPut⟩ := h2
              have hs2 : StructPres s1 s2 := by
                simp only [trimLoop] at hTrim
                exact trimGo_structP _ _ _ _ _ hTrim
              exact structPres_trans (structPres_trans hs1 hs2) (putN_structP hnd2 hPut rfl rfl)

theorem dfsKids_none (visit : ST → Option Nat → Int → Option ST) :
    ∀ (L : List Nat) (s : ST) (nid : Nat) (lh : Int) (b : Bool) (s1 : ST) (b1 : Bool),
      dfsKids visit nid lh s L b = some (s1, b1) →
      (∀ c ∈ L, childOf s nid c = none) →
      s1 = s ∧ b1 = b := by
  intro L
  induction L with
  | nil =>
      intro s nid lh b s1 b1 h _
      simp only [dfsKids] at h
      cases h
      exact ⟨rfl, rfl⟩
  | cons i is ih =>
      intro s nid lh b s1 b1 h hn
      simp only [dfsKids, Option.bind_eq_bind, Option.bind_eq_some] at h
      obtain ⟨nd, hnd, h⟩ := h
      have hni : nd.children i = none := by
        have := hn i (List.mem_cons_self i is)
        unfold childOf at this
        rw [hnd] at this
        exact this
      rw [hni] at h
      exact ih s nid lh b s1 b1 h (fun c hc => hn c (List.mem_cons_of_mem i hc))

theorem dfsKids_flag_false (visit : ST → Option Nat → Int → Option ST) :
    ∀ (L : List Nat) (s : ST) (nid : Nat) (lh : Int) (s1 : ST) (b1 : Bool),
      dfsKids visit nid lh s L false = some (s1, b1) → b1 = false := by
  intro L
  induction L with
  | nil =>
      intro s nid lh s1 b1 h
      simp only [dfsKids] at h
      cases h
      rfl
  | cons i is ih =>
      intro s nid lh s1 b1 h
      simp only [dfsKids, Option.bind_eq_bind, Option.bind_eq_some] at h
      obtain ⟨nd, hnd, h⟩ := h
      cases hCh : nd.children i with
      | none =>
          rw [hCh] at h
          exact ih s nid lh s1 b1 h
      | some cid =>
          rw [hCh] at h
          simp only [Option.bind_eq_bind, Option.bind_eq_some] at h
          obtain ⟨el, hel, sb, h1, h2⟩ := h
          exact ih sb nid lh s1 b1 h2

theorem dfsKids_flag (visit : ST → Option Nat → Int → Option ST) :
    ∀ (L : List Nat) (s : ST) (nid : Nat) (lh : Int) (b : Bool) (s1 : ST) (b1 : Bool),
      dfsKids visit nid lh s L b = some (s1, b1) →
      ∀ c ∈ L, ∀ w, childOf s nid c = some w → b1 = false := by
  intro L
  induction L with
  | nil =>
      intro s nid lh b s1 b1 h c hc
      cases hc
  | cons i is ih =>
      intro s nid lh b s1 b1 h c hc w hw
      simp only [dfsKids, Option.bind_eq_bind, Option.bind_eq_some] at h
      obtain ⟨nd, hnd, h⟩ := h
      cases hCh : nd.children i with
      | none =>
          rw [hCh] at h
          have hci : c ≠ i := by
            intro hx
            subst hx
            unfold childOf at hw
            rw [hnd, Option.some_bind, hCh] at hw
            cases hw
          have hc2 : c ∈ is := by
            cases List.mem_cons.mp hc with
            | inl hx => exact absurd hx hci
            | inr hx => exact hx
          exact ih s nid lh b s1 b1 h c hc2 w hw
      | some cid =>
          rw [hCh] at h
          simp only [Option.bind_eq_bind, Option.bind_eq_some] at h
          obtain ⟨el, hel, sb, h1, h2⟩ := h
          exact dfsKids_flag_false visit is sb nid lh s1 b1 h2

end Ukk

namespace Ukk

/-- The child loop leaves every node outside the visited subtrees alone. -/
theorem dfsKids_frame (f : Nat)
    (hIH : ∀ s v lh s', set_suffix_index_by_dfs f s (some v) lh = some s' →
      ∀ u, u ∉ visitT f s v → getN s' u = getN s u) :
    ∀ (L : List Nat) (s : ST) (nid : Nat) (lh : Int) (b : Bool) (s1 : ST) (b1 : Bool),
      dfsKids (fun s2 n h2 => set_suffix_index_by_dfs f s2 n h2) nid lh s L b = some (s1, b1) →
      ∀ u, (∀ c ∈ L, ∀ w, childOf s nid c = some w → u ∉ visitT f s w) →
      getN s1 u = getN s u := by
  intro L
  induction L with
  | nil =>
      intro s nid lh b s1 b1 h u _
      simp only [dfsKids] at h
      cases h
      rfl
  | cons i is ih =>
      intro s nid lh b s1 b1 h u hu
      simp only [dfsKids, Option.bind_eq_bind, Option.bind_eq_some] at h
      obtain ⟨nd, hnd, h⟩ := h
      cases hCh : nd.children i with
      | none =>
          rw [hCh] at h
          exact ih s nid lh b s1 b1 h u
            (fun c hc w hw => hu c (List.mem_cons_of_mem i hc) w hw)
      | some w =>
          rw [hCh] at h
          simp only [Option.bind_eq_bind, Option.bind_eq_some] at h
          obtain ⟨el, hel, sb, h1, h2⟩ := h
          have hw : childOf s nid i = some w := by
            unfold childOf
            rw [hnd, Option.some_bind, hCh]
          have hfr : getN sb u = getN s u :=
            hIH s w (lh + el) sb h1 u (hu i (List.mem_cons_self i is) w hw)
          have hst : StructPres s sb := dfs_structP f s (some w) (lh + el) sb h1
          have hrest : getN s1 u = getN sb u := by
            refine ih sb nid lh false s1 b1 h2 u ?_
            intro c hc w2 hw2
            rw [childOf_congr hst] at hw2
            rw [visitT_congr hst]
            exact hu c (List.mem_cons_of_mem i hc) w2 hw2
          rw [hrest, hfr]

/-- The annotation pass leaves every node outside the visited subtree
untouched. -/
theorem dfs_frame :
    ∀ (f : Nat) (s : ST) (v : Nat) (lh : Int) (s' : ST),
      set_suffix_index_by_dfs f s (some v) lh = some s' →
      ∀ u, u ∉ visitT f s v → getN s' u = getN s u := by
  intro f
  induction f with
  | zero => intro s v lh s' h; cases h
  | succ f ih =>
      intro s v lh s' h u hu
      simp only [set_suffix_index_by_dfs, Option.bind_eq_bind, Option.bind_eq_some] at h
      obtain ⟨⟨s1, leaf⟩, h1, h2⟩ := h
      simp only [visitT, List.mem_cons] at hu
      push_neg at hu
      obtain ⟨huv, huflat⟩ := hu
      have hk : getN s1 u = getN s u := by
        refine dfsKids_frame f ih _ s v lh true s1 leaf h1 u ?_
        intro c hc w hw hmem
        refine huflat ?_
        refine List.mem_flatMap.mpr ⟨w, ?_, hmem⟩
        unfold childList
        exact List.mem_filterMap.mpr ⟨c, hc, hw⟩
      cases leaf with
      | false =>
          rw [if_neg Bool.false_ne_true] at h2
          simp only [pure] at h2
          cases h2
          exact hk
      | true =>
          rw [if_pos rfl] at h2
          simp only [Option.bind_eq_bind, Option.bind_eq_some] at h2
          obtain ⟨nd, hnd, s2, hTrim, nd2, hnd2, hPut⟩ := h2
          simp only [trimLoop] at hTrim
          obtain ⟨ho2, _, _⟩ := trimGo_out _ _ _ _ _ hTrim
          rw [getN_putN_ne _ _ _ _ hPut u huv, ho2 u huv, hk]

end Ukk

namespace Ukk

theorem visitT_self_mem (f : Nat) (s : ST) (w : Nat) : w ∈ visitT f s w := by
  cases f with
  | zero => exact List.mem_singleton.mpr rfl
  | succ f => exact List.mem_cons_self _ _

theorem childList_mem {s : ST} {v c w : Nat} (hc : c < MAX_CHAR)
    (hw : childOf s v c = some w) : w ∈ childList s v :=
  List.mem_filterMap.mpr ⟨c, List.mem_range.mpr hc, hw⟩

theorem childPath_mem_visitT :
    ∀ (p : List Nat) (f : Nat) (s : ST) (w u : Nat),
      childPath s w p = some u → p.length ≤ f → (∀ c ∈ p, c < MAX_CHAR) →
      u ∈ visitT f s w := by
  intro p
  induction p with
  | nil =>
      intro f s w u h _ _
      simp only [childPath] at h
      cases h
      exact visitT_self_mem f s _
  | cons c cs ih =>
      intro f s w u h hlen h256
      simp only [childPath, Option.bind_eq_bind, Option.bind_eq_some] at h
      obtain ⟨w1, hw1, h⟩ := h
      cases f with
      | zero => simp at hlen
      | succ f =>
          have hmem : u ∈ visitT f s w1 :=
            ih f s w1 u h (by simp at hlen; omega)
              (fun x hx => h256 x (List.mem_cons_of_mem c hx))
          simp only [visitT]
          refine List.mem_cons_of_mem _ (List.mem_flatMap.mpr ⟨w1, ?_, hmem⟩)
          exact childList_mem (h256 c (List.mem_cons_self c cs)) hw1

theorem childPath_frameEq :
    ∀ (p : List Nat) (f : Nat) (s sa : ST) (w : Nat),
      (∀ u ∈ visitT f s w, getN sa u = getN s u) →
      p.length ≤ f → (∀ c ∈ p, c < MAX_CHAR) →
      childPath sa w p = childPath s w p := by
  intro p
  induction p with
  | nil => intro f s sa w _ _ _; rfl
  | cons c cs ih =>
      intro f s sa w hEq hlen h256
      have hgw : getN sa w = getN s w := hEq w (visitT_self_mem f s w)
      simp only [childPath, Option.bind_eq_bind]
      have hco : childOf sa w c = childOf s w c := by
        unfold childOf
        rw [hgw]
      rw [hco]
      cases hcw : childOf s w c with
      | none => rfl
      | some w1 =>
          simp only [Option.some_bind]
          cases f with
          | zero => simp at hlen
          | succ f =>
              refine ih f s sa w1 ?_ (by simp at hlen; omega)
                (fun x hx => h256 x (List.mem_cons_of_mem c hx))
              intro u hu
              refine hEq u ?_
              simp only [visitT]
              refine List.mem_cons_of_mem _ (List.mem_flatMap.mpr ⟨w1, ?_, hu⟩)
              exact childList_mem (h256 c (List.mem_cons_self c cs)) hcw

theorem pathHeight_frameEq :
    ∀ (p : List Nat) (f : Nat) (s sa : ST) (w : Nat),
      (∀ u ∈ visitT f s w, getN sa u = getN s u) →
      sa.leafEnd = s.leafEnd → sa.root = s.root →
      p.length ≤ f → (∀ c ∈ p, c < MAX_CHAR) →
      pathHeight sa w p = pathHeight s w p := by
  intro p
  induction p with
  | nil => intro f s sa w _ _ _ _ _; rfl
  | cons c cs ih =>
      intro f s sa w hEq hle hr hlen h256
      have hgw : getN sa w = getN s w := hEq w (visitT_self_mem f s w)
      simp only [pathHeight, Option.bind_eq_bind]
      have hco : childOf sa w c = childOf s w c := by
        unfold childOf
        rw [hgw]
      rw [hco]
      cases hcw : childOf s w c with
      | none => rfl
      | some w1 =>
          simp only [Option.some_bind]
          cases f with
          | zero => simp at hlen
          | succ f =>
              have hmemw1 : ∀ u ∈ visitT f s w1, u ∈ visitT (f + 1) s w := by
                intro u hu
                simp only [visitT]
                refine List.mem_cons_of_mem _ (List.mem_flatMap.mpr ⟨w1, ?_, hu⟩)
                exact childList_mem (h256 c (List.mem_cons_self c cs)) hcw
              have hgw1 : getN sa w1 = getN s w1 :=
                hEq w1 (hmemw1 w1 (visitT_self_mem f s w1))
              rw [edge_length_congr hgw1 hle hr]
              cases edge_length s w1 with
              | none => rfl
              | some el =>
                  simp only [Option.some_bind]
                  rw [ih f s sa w1 (fun u hu => hEq u (hmemw1 u hu)) hle hr
                    (by simp at hlen; omega)
                    (fun x hx => h256 x (List.mem_cons_of_mem c hx))]

end Ukk

namespace Ukk

theorem dfsKids_child_success (f : Nat) :
    ∀ (L : List Nat) (s : ST) (nid : Nat) (lh : Int) (b : Bool) (s1 : ST) (b1 : Bool),
      dfsKids (fun s2 n h2 => set_suffix_index_by_dfs f s2 n h2) nid lh s L b = some (s1, b1) →
      ∀ c ∈ L, ∀ w, childOf s nid c = some w →
      ∃ sa el sb, StructPres s sa ∧
        set_suffix_index_by_dfs f sa (some w) (lh + el) = some sb := by
  intro L
  induction L with
  | nil => intro s nid lh b s1 b1 h c hc; cases hc
  | cons i is ih =>
      intro s nid lh b s1 b1 h c hc w hw
      simp only [dfsKids, Option.bind_eq_bind, Option.bind_eq_some] at h
      obtain ⟨nd, hnd, h⟩ := h
      cases hCh : nd.children i with
      | none =>
          rw [hCh] at h
          have hci : c ≠ i := by
            intro hx
            subst hx
            unfold childOf at hw
            rw [hnd, Option.some_bind, hCh] at hw
            cases hw
          have hc2 : c ∈ is := by
            cases List.mem_cons.mp hc with
            | inl hx => exact absurd hx hci
            | inr hx => exact hx
          exact ih s nid lh b s1 b1 h c hc2 w hw
      | some w0 =>
          rw [hCh] at h
          simp only [Option.bind_eq_bind, Option.bind_eq_some] at h
          obtain ⟨el0, hel0, sb0, h1, h2⟩ := h
          by_cases hci : c = i
          · subst hci
            have hww0 : w = w0 := by
              unfold childOf at hw
              rw [hnd, Option.some_bind, hCh] at hw
              injection hw with hx
              exact hx.symm
            subst hww0
            exact ⟨s, el0, sb0, structPres_refl s, h1⟩
          · have hc2 : c ∈ is := by
              cases List.mem_cons.mp hc with
              | inl hx => exact absurd hx hci
              | inr hx => exact hx
            have hst0 : StructPres s sb0 := dfs_structP f s (some w0) (lh + el0) sb0 h1
            have hw2 : childOf sb0 nid c = some w := by
              rw [childOf_congr hst0]
              exact hw
            obtain ⟨sa, el, sb, hstA, hdfsA⟩ := ih sb0 nid lh false s1 b1 h2 c hc2 w hw2
            exact ⟨sa, el, sb, structPres_trans hst0 hstA, hdfsA⟩

theorem dfs_depth :
    ∀ (p : List Nat) (f : Nat) (s : ST) (v : Nat) (lh : Int) (s' : ST) (u : Nat),
      set_suffix_index_by_dfs f s (some v) lh = some s' →
      childPath s v p = some u → (∀ c ∈ p, c < MAX_CHAR) →
      p.length < f := by
  intro p
  induction p with
  | nil =>
      intro f s v lh s' u h _ _
      cases f with
      | zero => cases h
      | succ f => simp
  | cons c cs ih =>
      intro f s v lh s' u h hp h256
      cases f with
      | zero => cases h
      | succ f =>
          simp only [set_suffix_index_by_dfs, Option.bind_eq_bind, Option.bind_eq_some] at h
          obtain ⟨⟨s1, leaf⟩, h1, _⟩ := h
          simp only [childPath, Option.bind_eq_bind, Option.bind_eq_some] at hp
          obtain ⟨w, hw, hp⟩ := hp
          have hcr : c ∈ List.range MAX_CHAR :=
            List.mem_range.mpr (h256 c (List.mem_cons_self c cs))
          obtain ⟨sa, el, sb, hstA, hdfsA⟩ :=
            dfsKids_child_success f _ s v lh true s1 leaf h1 c hcr w hw
          have hpa : childPath sa w cs = some u := by
            rw [childPath_congr hstA]
            exact hp
          have := ih f sa w (lh + el) sb u hdfsA hpa
            (fun x hx => h256 x (List.mem_cons_of_mem c hx))
          simp only [List.length_cons]
          omega

end Ukk

namespace Ukk

/-- Locate a particular child's recursive visit inside the child loop: the
call starts from a state agreeing with `s` on the child's subtree, uses the
edge length read off `s`, and the loop's final state agrees with the call's
result on that subtree. -/
theorem dfsKids_locate (f : Nat) :
    ∀ (L : List Nat) (s : ST) (nid : Nat) (lh : Int) (b : Bool) (s1 : ST) (b1 : Bool),
      dfsKids (fun s2 n h2 => set_suffix_index_by_dfs f s2 n h2) nid lh s L b = some (s1, b1) →
      ((L.filterMap (childOf s nid)).flatMap (visitT f s)).Nodup →
      ∀ c ∈ L, ∀ w, childOf s nid c = some w →
      ∃ sa el sb,
        (∀ u ∈ visitT f s w, getN sa u = getN s u) ∧
        StructPres s sa ∧
        edge_length s w = some el ∧
        set_suffix_index_by_dfs f sa (some w) (lh + el) = some sb ∧
        (∀ u ∈ visitT f s w, getN s1 u = getN sb u) := by
  intro L
  induction L with
  | nil => intro s nid lh b s1 b1 h _ c hc; cases hc
  | cons i is ih =>
      intro s nid lh b s1 b1 h hnodup c hc w hw
      simp only [dfsKids, Option.bind_eq_bind, Option.bind_eq_some] at h
      obtain ⟨nd, hnd, h⟩ := h
      cases hCh : nd.children i with
      | none =>
          rw [hCh] at h
          have hci0 : childOf s nid i = none := by
            unfold childOf
            rw [hnd, Option.some_bind, hCh]
          have hci : c ≠ i := by
            intro hx
            subst hx
            rw [hci0] at hw
            cases hw
          have hc2 : c ∈ is := by
            cases List.mem_cons.mp hc with
            | inl hx => exact absurd hx hci
            | inr hx => exact hx
          have hfm : ((i :: is).filterMap (childOf s nid)) = is.filterMap (childOf s nid) := by
            rw [List.filterMap_cons, hci0]
          rw [hfm] at hnodup
          exact ih s nid lh b s1 b1 h hnodup c hc2 w hw
      | some w0 =>
          rw [hCh] at h
          simp only [Option.bind_eq_bind, Option.bind_eq_some] at h
          obtain ⟨el0, hel0, sb0, h1, h2⟩ := h
          have hci0 : childOf s nid i = some w0 := by
            unfold childOf
            rw [hnd, Option.some_bind, hCh]
          have hfm : (((i :: is).filterMap (childOf s nid)).flatMap (visitT f s)) =
              visitT f s w0 ++ ((is.filterMap (childOf s nid)).flatMap (visitT f s)) := by
            rw [List.filterMap_cons, hci0]
            rfl
          rw [hfm] at hnodup
          obtain ⟨hnw0, hnrest, hdisj⟩ := List.nodup_append.mp hnodup
          have hstb0 : StructPres s sb0 := dfs_structP f s (some w0) (lh + el0) sb0 h1
          by_cases hcase : c = i
          · subst hcase
            have hww0 : w = w0 := by
              rw [hci0] at hw
              injection hw with hx
              exact hx.symm
            subst hww0
            refine ⟨s, el0, sb0, fun u _ => rfl, structPres_refl s, hel0, h1, ?_⟩
            intro u hu
            refine dfsKids_frame f (dfs_frame f) _ sb0 nid lh false s1 b1 h2 u ?_
            intro c2 hc2 w2 hw2 hmem2
            rw [childOf_congr hstb0] at hw2
            rw [visitT_congr hstb0] at hmem2
            have hu2 : u ∈ (is.filterMap (childOf s nid)).flatMap (visitT f s) :=
              List.mem_flatMap.mpr ⟨w2, List.mem_filterMap.mpr ⟨c2, hc2, hw2⟩, hmem2⟩
            exact hdisj hu hu2
          · have hc2 : c ∈ is := by
              cases List.mem_cons.mp hc with
              | inl hx => exact absurd hx hcase
              | inr hx => exact hx
            have hwrest : ∀ u ∈ visitT f s w, u ∈ (is.filterMap (childOf s nid)).flatMap (visitT f s) := by
              intro u hu
              exact List.mem_flatMap.mpr ⟨w, List.mem_filterMap.mpr ⟨c, hc2, hw⟩, hu⟩
            have hfr0 : ∀ u ∈ visitT f s w, getN sb0 u = getN s u := by
              intro u hu
              refine dfs_frame f s w0 (lh + el0) sb0 h1 u ?_
              intro hu0
              exact hdisj hu0 (hwrest u hu)
            have hnodup2 : ((is.filterMap (childOf sb0 nid)).flatMap (visitT f sb0)).Nodup := by
              have e1 : is.filterMap (childOf sb0 nid) = is.filterMap (childOf s nid) :=
                List.filterMap_congr (fun a _ => childOf_congr hstb0 nid a)
              rw [e1, listFlatMapCongr _ _ _ (fun a _ => visitT_congr hstb0 f a)]
              exact hnrest
            have hw2 : childOf sb0 nid c = some w := by
              rw [childOf_congr hstb0]
              exact hw
            obtain ⟨sa, el, sb, hEqA, hstA, helA, hdfsA, hOutA⟩ :=
              ih sb0 nid lh false s1 b1 h2 hnodup2 c hc2 w hw2
            have hvis : visitT f sb0 w = visitT f s w := visitT_congr hstb0 f w
            refine ⟨sa, el, sb, ?_, structPres_trans hstb0 hstA, ?_, hdfsA, ?_⟩
            · intro u hu
              rw [hEqA u (by rw [hvis]; exact hu)]
              exact hfr0 u hu
            · rw [← helA]
              refine (edge_length_congr ?_ ?_ ?_).symm
              · exact hfr0 w (visitT_self_mem f s w)
              · exact hstb0.2.2.1
              · exact hstb0.2.2.2.2.1
            · intro u hu
              exact hOutA u (by rw [hvis]; exact hu)

end Ukk

namespace Ukk

/-- Main characterization of the annotation pass along any root-to-node
path: a leaf's end is trimmed to the last sharp of its label and its index
is set from the pre-trim path height; nodes with children keep their index.
The `Nodup` hypothesis states that the visited arena is tree-shaped. -/
theorem dfs_path_spec :
    ∀ (p : List Nat) (f : Nat) (s : ST) (v : Nat) (lh : Int) (s' : ST) (u : Nat) (hp : Int),
      set_suffix_index_by_dfs (f + 1) s (some v) lh = some s' →
      (visitT (f + 1) s v).Nodup →
      childPath s v p = some u →
      pathHeight s v p = some hp →
      (∀ c ∈ p, c < MAX_CHAR) →
      (childList s u = [] →
        (getN s' u).map (fun nd => nd.suffixIndex) = some (s.size - (lh + hp)) ∧
        (getN s' u).map (fun nd => nd.endv) =
          (getN s u).map (fun nd => trimEndv s.text nd.start (resolveEnd s nd.endv) nd.endv)) ∧
      (childList s u ≠ [] →
        (getN s' u).map (fun nd => nd.suffixIndex) =
          (getN s u).map (fun nd => nd.suffixIndex)) := by
  intro p
  induction p with
  | nil =>
      intro f s v lh s' u hp h hnodup hpath hheight _
      simp only [childPath] at hpath
      injection hpath with hpath
      subst hpath
      simp only [pathHeight] at hheight
      injection hheight with hheight
      subst hheight
      simp only [set_suffix_index_by_dfs, Option.bind_eq_bind, Option.bind_eq_some] at h
      obtain ⟨⟨s1, leaf⟩, h1, h2⟩ := h
      constructor
      · -- the node is a leaf
        intro hleaf
        have hAllNone : ∀ c ∈ List.range MAX_CHAR, childOf s v c = none :=
          List.filterMap_eq_nil_iff.mp hleaf
        obtain ⟨hs1, hlf⟩ := dfsKids_none _ _ s v lh true s1 leaf h1 hAllNone
        subst hlf
        rw [hs1] at h2
        rw [if_pos rfl] at h2
        simp only [Option.bind_eq_bind, Option.bind_eq_some] at h2
        obtain ⟨nd, hnd, s2, hTrim, nd2, hnd2, hPut⟩ := h2
        simp only [trimLoop] at hTrim
        obtain ⟨_, _, hendT⟩ := trimGo_out _ _ _ _ _ hTrim
        have hsize2 : s2.size = s.size := (trimGo_structP _ _ _ _ _ hTrim).2.2.2.1
        obtain ⟨hv', _, _, _, _, _, _, _, _, _, _⟩ := putN_spec hPut
        have harith : s.size - (lh + 0) = s.size - lh := by ring
        rw [hnd2] at hendT
        rw [hnd] at hendT
        constructor
        · rw [hv', harith]
          simp only [Option.map_some']
          rw [hsize2]
        · rw [hv', hnd]
          simp only [Option.map_some']
          unfold trimEndv
          cases hls : lastSharp s.text ((resolveEnd s nd.endv + 1) - nd.start).toNat nd.start with
          | some j =>
              rw [hls] at hendT
              have hendT2 : some nd2.endv = some (EEnd.fixed j) := hendT
              exact hendT2
          | none =>
              rw [hls] at hendT
              have hendT2 : some nd2.endv = some nd.endv := hendT
              exact hendT2
      · -- the node has children
        intro hnl
        obtain ⟨w, hwmem⟩ := List.exists_mem_of_ne_nil _ hnl
        obtain ⟨c, hcR, hcw⟩ := List.mem_filterMap.mp hwmem
        have hlf : leaf = false := dfsKids_flag _ _ s v lh true s1 leaf h1 c hcR w hcw
        subst hlf
        rw [if_neg Bool.false_ne_true] at h2
        simp only [pure] at h2
        cases h2
        have hn2 : (v :: (childList s v).flatMap (visitT f s)).Nodup := hnodup
        have hvni : v ∉ (childList s v).flatMap (visitT f s) := (List.nodup_cons.mp hn2).1
        have hk : getN s' v = getN s v := by
          refine dfsKids_frame f (dfs_frame f) _ s v lh true s' false h1 v ?_
          intro c2 hc2 w2 hw2 hmem2
          exact hvni (List.mem_flatMap.mpr ⟨w2, childList_mem (List.mem_range.mp hc2) hw2, hmem2⟩)
        rw [hk]
  | cons c cs ih =>
      intro f s v lh s' u hp h hnodup hpath hheight h256
      simp only [childPath, Option.bind_eq_bind, Option.bind_eq_some] at hpath
      obtain ⟨w, hw, hpath2⟩ := hpath
      simp only [pathHeight, Option.bind_eq_bind, Option.bind_eq_some] at hheight
      obtain ⟨w2, hw2, el, hel, hr, hrr, hhp⟩ := hheight
      rw [hw] at hw2
      injection hw2 with hw2
      subst hw2
      injection hhp with hhp
      subst hhp
      simp only [set_suffix_index_by_dfs, Option.bind_eq_bind, Option.bind_eq_some] at h
      obtain ⟨⟨s1, leaf⟩, h1, h2⟩ := h
      have hn2 : (v :: (childList s v).flatMap (visitT f s)).Nodup := hnodup
      have hvni : v ∉ (childList s v).flatMap (visitT f s) := (List.nodup_cons.mp hn2).1
      have hnf : ((childList s v).flatMap (visitT f s)).Nodup := (List.nodup_cons.mp hn2).2
      have hc256 : c < MAX_CHAR := h256 c (List.mem_cons_self c cs)
      have h256t : ∀ x ∈ cs, x < MAX_CHAR := fun x hx => h256 x (List.mem_cons_of_mem c hx)
      have hcR : c ∈ List.range MAX_CHAR := List.mem_range.mpr hc256
      obtain ⟨sa, el2, sb, hEqA, hstA, helA, hdfsA, hOutA⟩ :=
        dfsKids_locate f _ s v lh true s1 leaf h1 hnf c hcR w hw
      rw [hel] at helA
      injection helA with helA
      subst helA
      have hpa : childPath sa w cs = some u := by
        rw [childPath_congr hstA]
        exact hpath2
      have hdep : cs.length < f := dfs_depth cs f sa w (lh + el) sb u hdfsA hpa h256t
      have humemS : u ∈ visitT f s w := childPath_mem_visitT cs f s w u hpath2 (by omega) h256t
      have hgsa : getN sa u = getN s u := hEqA u humemS
      have hwcl : w ∈ childList s v := childList_mem hc256 hw
      have hnw : (visitT f s w).Nodup := (List.nodup_flatMap.mp hnf).1 w hwcl
      have hnaw : (visitT f sa w).Nodup := by
        rw [visitT_congr hstA]
        exact hnw
      have hhpa : pathHeight sa w cs = some hr := by
        rw [pathHeight_frameEq cs f s sa w hEqA hstA.2.2.1 hstA.2.2.2.2.1 (by omega) h256t]
        exact hrr
      have huv : u ≠ v := by
        intro hx
        subst hx
        exact hvni (List.mem_flatMap.mpr ⟨w, hwcl, humemS⟩)
      cases f with
      | zero => cases hdfsA
      | succ g =>
          obtain ⟨ihA, ihB⟩ := ih g sa w (lh + el) sb u hr hdfsA hnaw hpa hhpa h256t
          have hout : getN s' u = getN sb u := by
            cases leaf with
            | false =>
                rw [if_neg Bool.false_ne_true] at h2
                simp only [pure] at h2
                cases h2
                exact hOutA u humemS
            | true =>
                rw [if_pos rfl] at h2
                simp only [Option.bind_eq_bind, Option.bind_eq_some] at h2
                obtain ⟨nd, hnd, s2, hTrim, nd2, hnd2, hPut⟩ := h2
                simp only [trimLoop] at hTrim
                obtain ⟨hoT, _, _⟩ := trimGo_out _ _ _ _ _ hTrim
                rw [getN_putN_ne _ _ _ _ hPut u huv, hoT u huv]
                exact hOutA u humemS
          have hclu : childList sa u = childList s u := childList_congr hstA u
          have hsize : sa.size = s.size := hstA.2.2.2.1
          have harith2 : sa.size - (lh + el + hr) = s.size - (lh + (el + hr)) := by
            rw [hsize]
            ring
          constructor
          · intro hleaf
            obtain ⟨hA1, hA2⟩ := ihA (by rw [hclu]; exact hleaf)
            constructor
            · rw [hout, hA1, harith2]
            · rw [hout, hA2, hgsa]
              have htxt : sa.text = s.text := hstA.2.1
              have hre : ∀ e, resolveEnd sa e = resolveEnd s e :=
                resolveEnd_congr hstA.2.2.1
              simp only [htxt, hre]
          · intro hnl
            have hB := ihB (by rw [hclu]; exact hnl)
            rw [hgsa] at hB
            rw [hout]
            exact hB

end Ukk

namespace Ukk

/-- The annotated state of `"a##"` reached by running the annotation pass on
the pre-annotation tree with ample fuel. -/
def w5s' : ST := (set_suffix_index_by_dfs 9 preASS (some preASS.root) 0).getD default

/-- C5 (amended).  In the annotation pass, for every root-to-node path `p`
(all symbols in the alphabet) reaching node `u` with pre-trim label height
`hp`: when `u` is a leaf its `end` is trimmed to the LAST sentinel position
of its label when one is present (`trimEndv`), not the first, and its
`suffix_index` becomes `text_length - hp` with `hp` measured before
trimming; when `u` has children its `suffix_index` is left unchanged (so it
stays `-1` as initialized).  The `Nodup` hypothesis states that the visited
arena is tree-shaped. -/
theorem c5_annotation_trims_last_sentinel
    (f : Nat) (s : ST) (s' : ST) (p : List Nat) (u : Nat) (hp : Int)
    (hdfs : set_suffix_index_by_dfs (f + 1) s (some s.root) 0 = some s')
    (hnd : (visitT (f + 1) s s.root).Nodup)
    (hpath : childPath s s.root p = some u)
    (hh : pathHeight s s.root p = some hp)
    (h256 : ∀ c ∈ p, c < MAX_CHAR) :
    (childList s u = [] →
      (getN s' u).map (fun nd => nd.suffixIndex) = some (s.size - hp) ∧
      (getN s' u).map (fun nd => nd.endv) =
        (getN s u).map (fun nd => trimEndv s.text nd.start (resolveEnd s nd.endv) nd.endv)) ∧
    (childList s u ≠ [] →
      (getN s' u).map (fun nd => nd.suffixIndex) =
        (getN s u).map (fun nd => nd.suffixIndex)) := by
  have h := dfs_path_spec p f s s.root 0 s' u hp hdfs hnd hpath hh h256
  simpa using h

/-- Witness for C5 (amended): on the pre-annotation tree of `"a##"`, the
path `[97]` from the root reaches leaf `1` with label height `3`, and the
annotation sets its index to `3 - 3 = 0` and trims its end to the last
sentinel. -/
theorem c5_annotation_trims_last_sentinel_witness :
    set_suffix_index_by_dfs 9 preASS (some preASS.root) 0 = some w5s' ∧
    ((childList preASS 1 = [] →
      (getN w5s' 1).map (fun nd => nd.suffixIndex) = some (preASS.size - 3) ∧
      (getN w5s' 1).map (fun nd => nd.endv) =
        (getN preASS 1).map
          (fun nd => trimEndv preASS.text nd.start (resolveEnd preASS nd.endv) nd.endv)) ∧
    (childList preASS 1 ≠ [] →
      (getN w5s' 1).map (fun nd => nd.suffixIndex) =
        (getN preASS 1).map (fun nd => nd.suffixIndex))) :=
  ⟨eq_some_getD _ default rfl,
   c5_annotation_trims_last_sentinel 8 preASS w5s' [97] 1 3
     (eq_some_getD _ default rfl) (by decide) (by decide) (by decide) (by decide)⟩

end Ukk
